import Mathlib

/-!
Verification of the answer/attachment reconciliation and ledger-commit
subsystem of the DI-CLIENT repository (`src/app.py`).

Strings are modelled as `List Char` (Python `str` is a sequence of Unicode
code points; Lean `Char` is a Unicode scalar value).  Character-level
Python primitives (`str.lower`, `str.strip`, the Unicode-aware regex
classes `\w` and `\s`) are modelled faithfully on the fragment of Unicode
consisting of all code points below 256 together with U+03BC; the doc
comment of each such primitive states this.  Filesystem state is modelled
as association lists from path to content, with a write shadowing any
earlier entry for the same path.
-/

/-- Python strings as lists of Unicode scalar values. -/
abbrev Str := List Char

namespace DIClient

/-! ### Decimal representation (Python `str` of a non-negative `int`) -/

/-- Fuel-driven decimal digit writer; `n + 1` fuel always suffices. -/
def natReprAux : Nat → Nat → Str
  | 0, _ => []
  | fuel + 1, n =>
    if n < 10 then [Char.ofNat (48 + n)]
    else natReprAux fuel (n / 10) ++ [Char.ofNat (48 + n % 10)]

/-- Decimal representation of a natural number, as produced by Python's
`str`/`format` on a non-negative `int`: most-significant digit first, no
leading zeros, `"0"` for zero. -/
def natRepr (n : Nat) : Str := natReprAux (n + 1) n

theorem natReprAux_fuel {n : Nat} : ∀ {f : Nat}, n < f →
    natReprAux f n = natReprAux (n + 1) n := by
  induction n using Nat.strong_induction_on with
  | _ n ih =>
    intro f hf
    match f, hf with
    | g + 1, hf =>
      by_cases h10 : n < 10
      · simp only [natReprAux, if_pos h10]
      · have hlt : n / 10 < n := Nat.div_lt_self (by omega) (by omega)
        simp only [natReprAux, if_neg h10]
        rw [ih (n / 10) hlt (by omega), ih (n / 10) hlt (f := n) (by omega)]

/-- Left fold reading a digit string back into a number. -/
def decodeNat (l : Str) : Nat :=
  l.foldl (fun a c => a * 10 + (c.toNat - 48)) 0

/-- Decimal representation of a Python `int`, with `'-'` sign. -/
def intRepr (i : Int) : Str :=
  if i < 0 then '-' :: natRepr i.natAbs else natRepr i.natAbs

/-- `Char.ofNat` evaluates to its argument below the surrogate range. -/
theorem toNat_ofNat_lt {n : Nat} (h : n < 55296) : (Char.ofNat n).toNat = n := by
  have hv : Nat.isValidChar n := Or.inl h
  unfold Char.ofNat
  rw [dif_pos hv]
  simp [Char.ofNatAux, Char.toNat, UInt32.toNat, BitVec.toNat_ofNatLt]

theorem natRepr_eq (n : Nat) :
    natRepr n = if n < 10 then [Char.ofNat (48 + n)]
      else natRepr (n / 10) ++ [Char.ofNat (48 + n % 10)] := by
  have hdef : natReprAux (n + 1) n = if n < 10 then [Char.ofNat (48 + n)]
      else natReprAux n (n / 10) ++ [Char.ofNat (48 + n % 10)] := rfl
  unfold natRepr
  rw [hdef]
  by_cases h10 : n < 10
  · rw [if_pos h10, if_pos h10]
  · rw [if_neg h10, if_neg h10,
      natReprAux_fuel (Nat.div_lt_self (by omega) (by omega))]

/-- Every character of `natRepr n` is an ASCII digit. -/
theorem natRepr_digits (n : Nat) : ∀ c ∈ natRepr n, 48 ≤ c.toNat ∧ c.toNat ≤ 57 := by
  induction n using Nat.strong_induction_on with
  | _ n ih =>
    rw [natRepr_eq]
    by_cases h : n < 10
    · rw [if_pos h]
      intro c hc
      simp only [List.mem_singleton] at hc
      subst hc
      rw [toNat_ofNat_lt (by omega)]
      omega
    · rw [if_neg h]
      intro c hc
      rcases List.mem_append.mp hc with h1 | h2
      · exact ih (n / 10) (Nat.div_lt_self (by omega) (by omega)) c h1
      · simp only [List.mem_singleton] at h2
        subst h2
        rw [toNat_ofNat_lt (by omega)]
        omega

theorem decodeNat_natRepr (n : Nat) : decodeNat (natRepr n) = n := by
  induction n using Nat.strong_induction_on with
  | _ n ih =>
    rw [natRepr_eq]
    by_cases h : n < 10
    · rw [if_pos h]
      simp only [decodeNat, List.foldl_cons, List.foldl_nil]
      rw [toNat_ofNat_lt (by omega)]
      omega
    · rw [if_neg h]
      simp only [decodeNat, List.foldl_append, List.foldl_cons, List.foldl_nil]
      have hrec := ih (n / 10) (Nat.div_lt_self (by omega) (by omega))
      simp only [decodeNat] at hrec
      rw [hrec, toNat_ofNat_lt (by omega)]
      omega

theorem natRepr_inj {m n : Nat} (h : natRepr m = natRepr n) : m = n := by
  have := decodeNat_natRepr m
  rw [h, decodeNat_natRepr] at this
  omega

theorem natRepr_ne_nil (n : Nat) : natRepr n ≠ [] := by
  rw [natRepr_eq]
  by_cases h : n < 10 <;> simp [h]

theorem intRepr_inj {a b : Int} (h : intRepr a = intRepr b) : a = b := by
  unfold intRepr at h
  by_cases ha : a < 0 <;> by_cases hb : b < 0
  · rw [if_pos ha, if_pos hb] at h
    have h2 : natRepr a.natAbs = natRepr b.natAbs := by injection h
    have := natRepr_inj h2
    omega
  · rw [if_pos ha, if_neg hb] at h
    exfalso
    rcases hc : natRepr b.natAbs with _ | ⟨c, cs⟩
    · exact natRepr_ne_nil _ hc
    · rw [hc] at h
      have hd := natRepr_digits b.natAbs c (by rw [hc]; exact List.mem_cons_self ..)
      have : '-' = c := by simpa using congrArg List.head? h
      rw [← this] at hd
      simp at hd
  · rw [if_neg ha, if_pos hb] at h
    exfalso
    rcases hc : natRepr a.natAbs with _ | ⟨c, cs⟩
    · exact natRepr_ne_nil _ hc
    · rw [hc] at h
      have hd := natRepr_digits a.natAbs c (by rw [hc]; exact List.mem_cons_self ..)
      have : c = '-' := by simpa using congrArg List.head? h
      rw [this] at hd
      simp at hd
  · rw [if_neg ha, if_neg hb] at h
    have := natRepr_inj h
    omega

/-! ### Character classes and `str.lower`

Python's Unicode-aware `\w`, `\s` and `str.lower` are modelled faithfully
on the fragment of Unicode made of all code points below 256 together with
U+03BC (to which `str.lower` sends U+00B5).  Code points outside this
fragment are classified as neither word nor space characters and are left
unchanged by lowering. -/

/-- Python regex `\s` (Unicode): all Unicode whitespace code points. -/
def isSpace (c : Char) : Bool :=
  decide ((9 ≤ c.toNat ∧ c.toNat ≤ 13) ∨ (28 ≤ c.toNat ∧ c.toNat ≤ 32) ∨
    c.toNat = 133 ∨ c.toNat = 160 ∨ c.toNat = 5760 ∨
    (8192 ≤ c.toNat ∧ c.toNat ≤ 8202) ∨ c.toNat = 8232 ∨ c.toNat = 8233 ∨
    c.toNat = 8239 ∨ c.toNat = 8287 ∨ c.toNat = 12288)

/-- Python regex `\w` (Unicode): alphanumeric characters and `_`.  On the
modelled fragment this is ASCII alphanumerics, `_`, the Latin-1 letters
and numeric signs (ª ² ³ µ ¹ º ¼ ½ ¾ and À–ÿ except × ÷), and µ's
lower-case image U+03BC. -/
def isWordChar (c : Char) : Bool :=
  decide ((48 ≤ c.toNat ∧ c.toNat ≤ 57) ∨ (65 ≤ c.toNat ∧ c.toNat ≤ 90) ∨
    (97 ≤ c.toNat ∧ c.toNat ≤ 122) ∨ c.toNat = 95 ∨
    c.toNat = 170 ∨ c.toNat = 178 ∨ c.toNat = 179 ∨ c.toNat = 181 ∨
    c.toNat = 185 ∨ c.toNat = 186 ∨ c.toNat = 188 ∨ c.toNat = 189 ∨ c.toNat = 190 ∨
    (192 ≤ c.toNat ∧ c.toNat ≤ 255 ∧ c.toNat ≠ 215 ∧ c.toNat ≠ 247) ∨
    c.toNat = 956)

/-- Python `str.lower` on one character, on the modelled fragment:
`A`–`Z` and `À`–`Þ` (except ×) shift by 32, µ becomes U+03BC, everything
else in the fragment is already lower-case and is fixed. -/
def pyLower (c : Char) : Char :=
  if 65 ≤ c.toNat ∧ c.toNat ≤ 90 then Char.ofNat (c.toNat + 32)
  else if 192 ≤ c.toNat ∧ c.toNat ≤ 222 ∧ c.toNat ≠ 215 then Char.ofNat (c.toNat + 32)
  else if c.toNat = 181 then Char.ofNat 956
  else c

theorem pyLower_eq_self_of {c : Char} (h1 : ¬(65 ≤ c.toNat ∧ c.toNat ≤ 90))
    (h2 : ¬(192 ≤ c.toNat ∧ c.toNat ≤ 222 ∧ c.toNat ≠ 215)) (h3 : c.toNat ≠ 181) :
    pyLower c = c := by
  unfold pyLower
  rw [if_neg h1, if_neg h2, if_neg h3]

theorem pyLower_idem (c : Char) : pyLower (pyLower c) = pyLower c := by
  by_cases h1 : 65 ≤ c.toNat ∧ c.toNat ≤ 90
  · have he : pyLower c = Char.ofNat (c.toNat + 32) := by unfold pyLower; rw [if_pos h1]
    have ht : (pyLower c).toNat = c.toNat + 32 := by rw [he]; exact toNat_ofNat_lt (by omega)
    rw [he]
    rw [← he]
    exact pyLower_eq_self_of (by omega) (by omega) (by omega)
  · by_cases h2 : 192 ≤ c.toNat ∧ c.toNat ≤ 222 ∧ c.toNat ≠ 215
    · have he : pyLower c = Char.ofNat (c.toNat + 32) := by
        unfold pyLower; rw [if_neg h1, if_pos h2]
      have ht : (pyLower c).toNat = c.toNat + 32 := by rw [he]; exact toNat_ofNat_lt (by omega)
      exact pyLower_eq_self_of (by omega) (by omega) (by omega)
    · by_cases h3 : c.toNat = 181
      · have he : pyLower c = Char.ofNat 956 := by unfold pyLower; rw [if_neg h1, if_neg h2, if_pos h3]
        have ht : (pyLower c).toNat = 956 := by rw [he]; exact toNat_ofNat_lt (by omega)
        exact pyLower_eq_self_of (by omega) (by omega) (by omega)
      · rw [pyLower_eq_self_of h1 h2 h3, pyLower_eq_self_of h1 h2 h3]

/-- Characters collapsed to `_` by the second substitution in `slugify`. -/
def isSep (c : Char) : Bool := isSpace c || c == '-'

theorem word_not_sep {c : Char} (h : isWordChar c = true) : isSep c = false := by
  unfold isWordChar at h
  unfold isSep isSpace
  rw [decide_eq_true_iff] at h
  have hd : c ≠ '-' := by
    intro he
    rw [he] at h
    simp at h
  simp only [Bool.or_eq_false_iff, beq_eq_false_iff_ne, ne_eq]
  refine ⟨?_, hd⟩
  rw [decide_eq_false_iff_not]
  omega

theorem word_not_space {c : Char} (h : isWordChar c = true) : isSpace c = false := by
  have := word_not_sep h
  unfold isSep at this
  exact (Bool.or_eq_false_iff.mp this).1

/-! ### `slugify` (src/app.py lines 27-35) -/

/-- `l.dropWhile p` from the right. -/
def rstrip (p : Char → Bool) (l : Str) : Str := (l.reverse.dropWhile p).reverse

/-- Python `str.strip`: drop characters satisfying `p` from both ends. -/
def pyStrip (p : Char → Bool) (l : Str) : Str := rstrip p (l.dropWhile p)

/-- `re.sub(r"[\s-]+", "_", s)`: replace each maximal run of whitespace or
hyphen characters by a single underscore. -/
def collapseSep : Str → Str
  | [] => []
  | [c] => if isSep c then ['_'] else [c]
  | c :: d :: rest =>
    if isSep c then
      (if isSep d then collapseSep (d :: rest) else '_' :: collapseSep (d :: rest))
    else c :: collapseSep (d :: rest)

/-- Characters kept by `re.sub(r"[^\w\s-]", "", s)`. -/
def keepChar (c : Char) : Bool := isWordChar c || isSpace c || c == '-'

/-- `slugify` before the final `or "x"` fallback: strip whitespace, lower,
remove characters outside `[\w\s-]`, collapse `[\s-]+` runs to `_`, strip
`_` from both ends. -/
def slugCore (s : Str) : Str :=
  pyStrip (fun c => c == '_')
    (collapseSep (((pyStrip isSpace s).map pyLower).filter keepChar))

/-- `slugify` from src/app.py: the sanitised string, or `"x"` if empty. -/
def slugify (s : Str) : Str := if slugCore s = [] then ['x'] else slugCore s

theorem dropWhile_mem {p : Char → Bool} {l : Str} {c : Char} (h : c ∈ l.dropWhile p) :
    c ∈ l := (List.dropWhile_sublist p).mem h

theorem pyStrip_mem {p : Char → Bool} {l : Str} {c : Char} (h : c ∈ pyStrip p l) : c ∈ l := by
  unfold pyStrip rstrip at h
  rw [List.mem_reverse] at h
  have h2 := dropWhile_mem h
  rw [List.mem_reverse] at h2
  exact dropWhile_mem h2

theorem collapseSep_mem : ∀ {l : Str} {c : Char}, c ∈ collapseSep l →
    c = '_' ∨ (c ∈ l ∧ isSep c = false)
  | [], c, h => by simp [collapseSep] at h
  | [a], c, h => by
    unfold collapseSep at h
    by_cases ha : isSep a
    · rw [if_pos ha] at h
      simp only [List.mem_singleton] at h
      exact Or.inl h
    · rw [if_neg ha] at h
      simp only [List.mem_singleton] at h
      subst h
      exact Or.inr ⟨List.mem_singleton_self _, by simpa using ha⟩
  | a :: b :: rest, c, h => by
    unfold collapseSep at h
    by_cases ha : isSep a
    · rw [if_pos ha] at h
      by_cases hb : isSep b
      · rw [if_pos hb] at h
        rcases collapseSep_mem h with h1 | ⟨h2, h3⟩
        · exact Or.inl h1
        · exact Or.inr ⟨List.mem_cons_of_mem _ h2, h3⟩
      · rw [if_neg hb] at h
        rcases List.mem_cons.mp h with h1 | h1
        · exact Or.inl h1
        · rcases collapseSep_mem h1 with h2 | ⟨h3, h4⟩
          · exact Or.inl h2
          · exact Or.inr ⟨List.mem_cons_of_mem _ h3, h4⟩
    · rw [if_neg ha] at h
      rcases List.mem_cons.mp h with h1 | h1
      · subst h1
        exact Or.inr ⟨List.mem_cons_self .., by simpa using ha⟩
      · rcases collapseSep_mem h1 with h2 | ⟨h3, h4⟩
        · exact Or.inl h2
        · exact Or.inr ⟨List.mem_cons_of_mem _ h3, h4⟩

theorem collapseSep_eq_self : ∀ {l : Str}, (∀ c ∈ l, isSep c = false) → collapseSep l = l
  | [], _ => rfl
  | [a], h => by
    unfold collapseSep
    rw [if_neg (by simp [h a (List.mem_singleton_self _)])]
  | a :: b :: rest, h => by
    unfold collapseSep
    rw [if_neg (by simp [h a (List.mem_cons_self ..)])]
    rw [collapseSep_eq_self (fun c hc => h c (List.mem_cons_of_mem _ hc))]

theorem dropWhile_eq_self {p : Char → Bool} {l : Str} (h : ∀ c ∈ l, p c = false) :
    l.dropWhile p = l := by
  cases l with
  | nil => rfl
  | cons a as =>
    rw [List.dropWhile_cons]
    rw [h a (List.mem_cons_self ..)]
    simp

theorem pyStrip_eq_self {p : Char → Bool} {l : Str} (h : ∀ c ∈ l, p c = false) :
    pyStrip p l = l := by
  unfold pyStrip rstrip
  rw [dropWhile_eq_self h]
  rw [dropWhile_eq_self (fun c hc => h c (List.mem_reverse.mp hc))]
  exact List.reverse_reverse l

theorem dropWhile_head_false {p : Char → Bool} {l : Str} {a : Char} {as : Str}
    (h : l.dropWhile p = a :: as) : p a = false := by
  induction l with
  | nil => simp at h
  | cons b bs ih =>
    rw [List.dropWhile_cons] at h
    by_cases hb : p b
    · rw [if_pos (by simpa using hb)] at h
      exact ih h
    · rw [if_neg (by simpa using hb)] at h
      rw [← (List.cons.injEq ..).mp h |>.1]
      simpa using hb

theorem dropWhile_idem {p : Char → Bool} {l : Str} :
    (l.dropWhile p).dropWhile p = l.dropWhile p := by
  cases hd : l.dropWhile p with
  | nil => rfl
  | cons a as =>
    rw [List.dropWhile_cons, dropWhile_head_false hd]
    simp

theorem rstrip_idem {p : Char → Bool} {l : Str} : rstrip p (rstrip p l) = rstrip p l := by
  unfold rstrip
  rw [List.reverse_reverse, dropWhile_idem]

theorem rstrip_prefix {p : Char → Bool} (l : Str) : ∃ t, rstrip p l ++ t = l := by
  unfold rstrip
  rcases (List.dropWhile_suffix p (l := l.reverse)) with ⟨t, ht⟩
  exact ⟨t.reverse, by rw [← List.reverse_append, ht, List.reverse_reverse]⟩

theorem pyStrip_idem {p : Char → Bool} {l : Str} : pyStrip p (pyStrip p l) = pyStrip p l := by
  unfold pyStrip
  have hstep : (rstrip p (l.dropWhile p)).dropWhile p = rstrip p (l.dropWhile p) := by
    cases hr : rstrip p (l.dropWhile p) with
    | nil => rfl
    | cons a as =>
      rcases rstrip_prefix (p := p) (l.dropWhile p) with ⟨t, ht⟩
      rw [hr] at ht
      have hhead : p a = false := by
        have h2 : l.dropWhile p = a :: (as ++ t) := by rw [← ht]; rfl
        exact dropWhile_head_false h2
      rw [List.dropWhile_cons, hhead]
      simp
  rw [hstep, rstrip_idem]

theorem map_eq_self_of {f : Char → Char} {l : Str} (h : ∀ c ∈ l, f c = c) : l.map f = l := by
  induction l with
  | nil => rfl
  | cons a as ih =>
    simp only [List.map_cons]
    rw [h a (List.mem_cons_self ..), ih (fun c hc => h c (List.mem_cons_of_mem _ hc))]

theorem filter_eq_self_of {p : Char → Bool} {l : Str} (h : ∀ c ∈ l, p c = true) :
    l.filter p = l := by
  induction l with
  | nil => rfl
  | cons a as ih =>
    rw [List.filter_cons, if_pos (h a (List.mem_cons_self ..)),
      ih (fun c hc => h c (List.mem_cons_of_mem _ hc))]

/-- Every character of a `slugify` result is a (Unicode) word character
already fixed by lower-casing. -/
theorem slug_mem {s : Str} {c : Char} (h : c ∈ slugify s) :
    isWordChar c = true ∧ pyLower c = c := by
  unfold slugify at h
  by_cases he : slugCore s = []
  · rw [if_pos he] at h
    simp only [List.mem_singleton] at h
    subst h
    exact ⟨by decide, by decide⟩
  · rw [if_neg he] at h
    unfold slugCore at h
    have h1 := pyStrip_mem h
    rcases collapseSep_mem h1 with h2 | ⟨h3, h4⟩
    · subst h2
      exact ⟨by decide, by decide⟩
    · rw [List.mem_filter] at h3
      rcases h3 with ⟨hmem, hkeep⟩
      unfold keepChar at hkeep
      unfold isSep at h4
      simp only [Bool.or_eq_false_iff, beq_eq_false_iff_ne, ne_eq] at h4
      rcases h4 with ⟨hsp, hdash⟩
      have hword : isWordChar c = true := by
        rcases Bool.or_eq_true_iff.mp hkeep with h5 | h5
        · rcases Bool.or_eq_true_iff.mp h5 with h6 | h6
          · exact h6
          · rw [hsp] at h6; exact absurd h6 (by simp)
        · rw [beq_iff_eq] at h5; exact absurd h5 hdash
      have hfix : pyLower c = c := by
        rcases List.mem_map.mp hmem with ⟨d, _, hd⟩
        rw [← hd]
        exact pyLower_idem d
      exact ⟨hword, hfix⟩

theorem slugify_ne_nil (s : Str) : slugify s ≠ [] := by
  unfold slugify
  by_cases he : slugCore s = []
  · rw [if_pos he]; simp
  · rw [if_neg he]; exact he

/-- The character set `[a-z0-9_]` named by the spec's claim about
`slugify` output. -/
def asciiSlugChar (c : Char) : Bool :=
  decide ((97 ≤ c.toNat ∧ c.toNat ≤ 122) ∨ (48 ≤ c.toNat ∧ c.toNat ≤ 57) ∨ c.toNat = 95)

/-- C4 counterexample: `slugify "é" = "é"`, and `é` is outside `[a-z0-9_]`.
The Unicode-aware `\w` class keeps non-ASCII word characters, and
lower-casing leaves `é` unchanged, so the claimed ASCII-only character set
is wrong. -/
theorem slug_charset_claim_cex :
    slugify ['é'] = ['é'] ∧ asciiSlugChar 'é' = false := by
  constructor
  · rfl
  · decide

/-- C4 amended: every character of `slugify s` is a lower-case-fixed
Unicode word character (`\w`, so non-ASCII letters can appear; on ASCII
this is exactly `[a-z0-9_]`); the result is never empty, and when the
sanitisation yields the empty string the fixed sentinel `"x"` is
returned. -/
theorem slug_charset_amended (s : Str) :
    (∀ c ∈ slugify s, isWordChar c = true ∧ pyLower c = c) ∧
      slugify s ≠ [] ∧ (slugCore s = [] → slugify s = ['x']) := by
  refine ⟨fun c hc => slug_mem hc, slugify_ne_nil s, fun he => ?_⟩
  unfold slugify
  rw [if_pos he]

/-- Witness for `slug_charset_amended` at a concrete input. -/
theorem slug_charset_amended_witness :
    isWordChar 'a' = true ∧ pyLower 'a' = 'a' :=
  (slug_charset_amended ['A', 'b']).1 'a' (by decide)

/-- C5 confirmed: `slugify` is idempotent. -/
theorem slugify_idempotent (s : Str) : slugify (slugify s) = slugify s := by
  have hword : ∀ c ∈ slugify s, isWordChar c = true := fun c hc => (slug_mem hc).1
  have hfix : ∀ c ∈ slugify s, pyLower c = c := fun c hc => (slug_mem hc).2
  have hstrip : pyStrip isSpace (slugify s) = slugify s :=
    pyStrip_eq_self (fun c hc => word_not_space (hword c hc))
  have hmap : (slugify s).map pyLower = slugify s := map_eq_self_of hfix
  have hfilter : (slugify s).filter keepChar = slugify s :=
    filter_eq_self_of (fun c hc => by
      unfold keepChar
      rw [hword c hc]
      simp)
  have hcollapse : collapseSep (slugify s) = slugify s :=
    collapseSep_eq_self (fun c hc => word_not_sep (hword c hc))
  have hunders : pyStrip (fun c => c == '_') (slugify s) = slugify s := by
    unfold slugify
    by_cases he : slugCore s = []
    · rw [if_pos he]
      decide
    · rw [if_neg he]
      unfold slugCore
      exact pyStrip_idem
  have hcore : slugCore (slugify s) = slugify s := by
    unfold slugCore
    rw [hstrip, hmap, hfilter, hcollapse, hunders]
  have hdef : slugify (slugify s)
      = if slugCore (slugify s) = [] then ['x'] else slugCore (slugify s) := rfl
  rw [hdef, hcore, if_neg (slugify_ne_nil s)]

/-! ### Python values, `str()` and `int()` coercion -/

/-- The Python values relevant to the claims: strings, integers and
`None` (covering both a JSON `null` and an absent key, which `dict.get`
maps to `None`).  Floats play no role in any claim and are not
modelled. -/
inductive PyObj where
  | pstr : Str → PyObj
  | pint : Int → PyObj
  | pnone : PyObj
deriving DecidableEq

/-- Python `str()` on a modelled value. -/
def pyStrOf : PyObj → Str
  | .pstr s => s
  | .pint n => intRepr n
  | .pnone => "None".toList

def isDigitCh (c : Char) : Bool := decide (48 ≤ c.toNat ∧ c.toNat ≤ 57)

/-- After a first digit, Python `int()` accepts further digits with single
underscores allowed between digits. -/
def moreDigits : Str → Bool
  | [] => true
  | '_' :: c :: r => isDigitCh c && moreDigits r
  | ['_'] => false
  | c :: rest => isDigitCh c && moreDigits rest

/-- A valid digit run for Python `int()` (ASCII digits; Unicode digit
variants are outside the modelled fragment). -/
def digitsOk : Str → Bool
  | [] => false
  | c :: rest => isDigitCh c && moreDigits rest

/-- Python `int(s)` on a string: optional surrounding whitespace, optional
sign, then a digit run; anything else raises `ValueError` (`none`). -/
def parseIntStr (s : Str) : Option Int :=
  let t := pyStrip isSpace s
  match t with
  | '+' :: rest =>
    if digitsOk rest then some ((decodeNat (rest.filter isDigitCh) : Nat) : Int) else none
  | '-' :: rest =>
    if digitsOk rest then some (-((decodeNat (rest.filter isDigitCh) : Nat) : Int)) else none
  | _ => if digitsOk t then some ((decodeNat (t.filter isDigitCh) : Nat) : Int) else none

/-- Python `int()` on a modelled value: identity on ints, string parsing
on strings; `int(None)` raises `TypeError` (`none`). -/
def pyToInt : PyObj → Option Int
  | .pint n => some n
  | .pstr s => parseIntStr s
  | .pnone => none

/-! ### Question records and `qkey` (src/app.py lines 195-196, 264-265) -/

/-- A question record as used by the core: the fields read by the commit
loop, plus `oid`, the CPython object identity `id(q)` used by the
fallback key (unique among simultaneously live objects, otherwise
arbitrary). -/
structure Question where
  numero : PyObj
  oid : Nat
  date : Str
  libelle : Str
  montant : PyObj
  piece : Str
  groupe : Str
  sousCompte : Str
  questionText : Str
deriving DecidableEq

/-- `qkey = f"q_{numero if numero is not None else id(q)}"`. -/
def qkey (q : Question) : Str :=
  'q' :: '_' :: (if q.numero = PyObj.pnone then natRepr q.oid else pyStrOf q.numero)

/-- C9 counterexample: in a single load, a question with `numero = 7` and a
`numero`-less question whose object id is `7` receive the same key
`"q_7"`, although object ids are pairwise distinct.  The claim's
guarantee fails for collections that mix present and absent `numero`. -/
theorem qkey_claim_cex :
    Question.oid ⟨.pint 7, 1, [], [], .pnone, [], [], [], []⟩ ≠
      Question.oid ⟨.pnone, 7, [], [], .pnone, [], [], [], []⟩ ∧
    qkey ⟨.pint 7, 1, [], [], .pnone, [], [], [], []⟩ =
      qkey ⟨.pnone, 7, [], [], .pnone, [], [], [], []⟩ := by
  constructor
  · decide
  · rfl

/-- C9 amended: keys are pairwise distinct for a collection whose `numero`
values are all present integers and pairwise distinct, and likewise for a
collection whose questions all lack `numero` (distinct object ids); but a
`numero`-derived key can collide with a fallback key, so mixed
collections are not covered. -/
theorem qkey_distinct_amended (qs : List Question) :
    ((∀ q ∈ qs, ∃ n : Int, q.numero = PyObj.pint n) →
      qs.Pairwise (fun a b => a.numero ≠ b.numero) →
      qs.Pairwise (fun a b => qkey a ≠ qkey b)) ∧
    ((∀ q ∈ qs, q.numero = PyObj.pnone) →
      qs.Pairwise (fun a b => a.oid ≠ b.oid) →
      qs.Pairwise (fun a b => qkey a ≠ qkey b)) := by
  constructor
  · intro hall hpw
    refine hpw.imp_of_mem ?_
    intro a b ha hb hne hk
    rcases hall a ha with ⟨na, hna⟩
    rcases hall b hb with ⟨nb, hnb⟩
    unfold qkey at hk
    rw [if_neg (by rw [hna]; simp), if_neg (by rw [hnb]; simp), hna, hnb] at hk
    have h2 : intRepr na = intRepr nb := by
      have := (List.cons.injEq ..).mp hk |>.2
      have := (List.cons.injEq ..).mp this |>.2
      exact this
    apply hne
    rw [hna, hnb, intRepr_inj h2]
  · intro hall hpw
    refine hpw.imp_of_mem ?_
    intro a b ha hb hne hk
    unfold qkey at hk
    rw [if_pos (hall a ha), if_pos (hall b hb)] at hk
    have h2 : natRepr a.oid = natRepr b.oid := by
      have := (List.cons.injEq ..).mp hk |>.2
      have := (List.cons.injEq ..).mp this |>.2
      exact this
    exact hne (natRepr_inj h2)

/-- Witness for `qkey_distinct_amended` on a concrete collection. -/
theorem qkey_distinct_amended_witness :
    List.Pairwise (fun a b => qkey a ≠ qkey b)
      [(⟨.pnone, 1, [], [], .pnone, [], [], [], []⟩ : Question),
       (⟨.pnone, 2, [], [], .pnone, [], [], [], []⟩ : Question)] :=
  (qkey_distinct_amended _).2 (by decide) (by decide)

/-! ### Attachment naming and storage (src/app.py lines 101-115, 233-241) -/

/-- Python `f"{i:03d}"`: left-pad with zeros to a total width of 3
characters including any sign. -/
def zeroPad (w : Nat) (l : Str) : Str := List.replicate (w - l.length) '0' ++ l

/-- `f"{int(numero):03d}"` once the value has been coerced to `int`. -/
def pad3 (i : Int) : Str :=
  if i < 0 then '-' :: zeroPad 2 (natRepr i.natAbs) else zeroPad 3 (natRepr i.natAbs)

/-- An uploaded file: the declared browser file name and the raw bytes. -/
structure Uploaded where
  name : Str
  content : List Nat
deriving DecidableEq

/-- The final path component. -/
def afterLastSlash (l : Str) : Str := (l.reverse.takeWhile (fun c => c != '/')).reverse

/-- `PurePath(name).suffix`: the part of the final component from its last
dot onwards, empty unless the dot index `i` satisfies
`0 < i < len(name) - 1`. -/
def pySuffix (name : Str) : Str :=
  if ((afterLastSlash name).reverse.takeWhile (fun c => c != '.')).length = 0 then []
  else if (afterLastSlash name).length ≤
      ((afterLastSlash name).reverse.takeWhile (fun c => c != '.')).length + 1 then []
  else '.' :: ((afterLastSlash name).reverse.takeWhile (fun c => c != '.')).reverse

/-- `ext = Path(uploaded.name).suffix.lower()`. -/
def extOf (up : Uploaded) : Str := (pySuffix up.name).map pyLower

/-- A well-formed extension: empty, or starting with a dot. -/
def extOkP (e : Str) : Prop := e = [] ∨ ∃ r, e = '.' :: r

theorem extOf_ok (up : Uploaded) : extOkP (extOf up) := by
  unfold extOf pySuffix
  split_ifs with h1 h2
  · exact Or.inl rfl
  · exact Or.inl rfl
  · rw [List.map_cons]
    have hdot : pyLower '.' = '.' := by decide
    rw [hdot]
    exact Or.inr ⟨_, rfl⟩

/-- File contents on disk, keyed by path relative to the application base
directory; a write shadows any earlier entry for the same path. -/
abbrev Bytes := List Nat

abbrev Disk := List (Str × Bytes)

def dwrite (d : Disk) (p : Str) (b : Bytes) : Disk := (p, b) :: d

def dread (d : Disk) (p : Str) : Option Bytes := d.lookup p

/-- `num_str = f"{int(numero):03d}" if (numero is not None) else "000"`;
`none` models the `int()` coercion raising. -/
def numStr : PyObj → Option Str
  | .pnone => some ['0', '0', '0']
  | v => (pyToInt v).map pad3

/-- `UPLOADS_DIR` relative to `BASE_DIR`. -/
def uploadDirRel : Str := "client_data/uploads/".toList

/-- Directory-and-stem part of a stored attachment path, before the
sequence number. -/
def uploadPathPre (cid ns : Str) : Str :=
  uploadDirRel ++ (slugify cid ++ ('/' :: (slugify cid ++ ('_' :: (ns ++ "_justif_".toList)))))

/-- Path (relative to `BASE_DIR`) of a stored attachment:
`client_data/uploads/{slug}/{slug}_{num_str}_justif_{seq}{ext}`. -/
def uploadPath (cid ns : Str) (seq : Nat) (ext : Str) : Str :=
  uploadPathPre cid ns ++ (natRepr seq ++ ext)

/-- `save_uploaded_file` from src/app.py: computes the standardised name,
writes the bytes, and returns the path relative to `BASE_DIR` (`none`
models an exception escaping the call). -/
def save_uploaded_file (cid : Str) (numero : PyObj) (up : Uploaded) (seq : Nat) (d : Disk) :
    Option (Str × Disk) :=
  match numStr numero with
  | none => none
  | some ns =>
    some (uploadPath cid ns seq (extOf up), dwrite d (uploadPath cid ns seq (extOf up)) up.content)

/-- The `for i, up in enumerate(ups, start=seq_start)` loop body: store
each file with consecutive sequence numbers, collecting the returned
relative paths. -/
def uploadFiles (cid : Str) (numero : PyObj) : List Uploaded → Nat → Disk → Option (List Str × Disk)
  | [], _, d => some ([], d)
  | up :: rest, seq, d =>
    match save_uploaded_file cid numero up seq d with
    | none => none
    | some (p, d') =>
      match uploadFiles cid numero rest (seq + 1) d' with
      | none => none
      | some (ps, d2) => some (p :: ps, d2)

/-- One upload batch (src/app.py lines 233-241): `seq_start` is
`len(saved_paths) + 1` and the new paths are appended to `saved_paths`. -/
def uploadBatch (cid : Str) (numero : PyObj) (ups : List Uploaded) (savedPaths : List Str)
    (d : Disk) : Option (List Str × Disk) :=
  match uploadFiles cid numero ups (savedPaths.length + 1) d with
  | none => none
  | some (ps, d') => some (savedPaths ++ ps, d')

/-- A sequence of upload batches for one `(client, numero)` pair,
threading the accumulated path list (the question's `files` draft entry)
and the disk. -/
def runBatches (cid : Str) (numero : PyObj) :
    List (List Uploaded) → List Str × Disk → Option (List Str × Disk)
  | [], st => some st
  | b :: rest, (paths, d) =>
    match uploadBatch cid numero b paths d with
    | none => none
    | some st' => runBatches cid numero rest st'

/-- The disk after storing `ups` at consecutive sequence numbers from
`seq`. -/
def foldWrites (cid ns : Str) : Nat → List Uploaded → Disk → Disk
  | _, [], d => d
  | seq, up :: rest, d =>
    foldWrites cid ns (seq + 1) rest (dwrite d (uploadPath cid ns seq (extOf up)) up.content)

/-- The relative paths returned for `ups` stored at consecutive sequence
numbers from `seq`. -/
def expPaths (cid ns : Str) : Nat → List Uploaded → List Str
  | _, [] => []
  | seq, up :: rest => uploadPath cid ns seq (extOf up) :: expPaths cid ns (seq + 1) rest

/-! #### Draft answer entries (shared with the commit model) -/

/-- One draft answer: `{"texte": ..., "files": [...]}`. -/
structure Entry where
  texte : Str
  files : List Str
deriving DecidableEq

/-- The in-memory `answers` mapping, `qkey → entry`; updates shadow older
entries. -/
abbrev Answers := List (Str × Entry)

/-- The per-question upload step of the display loop: read
`answers[qkey].get("files", [])`, run the batch with
`seq_start = len(saved_paths) + 1`, and store the extended path list back
under the question's key. -/
def uploadForQuestion (cid : Str) (q : Question) (ups : List Uploaded) (ans : Answers)
    (d : Disk) : Option (Answers × Disk) :=
  match uploadBatch cid q.numero ups (((ans.lookup (qkey q)).getD ⟨[], []⟩).files) d with
  | none => none
  | some (paths, d') =>
    some ((qkey q, ⟨((ans.lookup (qkey q)).getD ⟨[], []⟩).texte, paths⟩) :: ans, d')

theorem natRepr_isDigitCh {n : Nat} : ∀ c ∈ natRepr n, isDigitCh c = true := by
  intro c hc
  have := natRepr_digits n c hc
  unfold isDigitCh
  rw [decide_eq_true_iff]
  omega

theorem takeWhile_digits_append {l e : Str} (hl : ∀ c ∈ l, isDigitCh c = true)
    (he : extOkP e) : (l ++ e).takeWhile isDigitCh = l := by
  induction l with
  | nil =>
    simp only [List.nil_append]
    rcases he with h | ⟨r, h⟩
    · rw [h]; rfl
    · rw [h, List.takeWhile_cons]
      have hdot : isDigitCh '.' = false := by decide
      rw [hdot]
      simp
  | cons a as ih =>
    rw [List.cons_append, List.takeWhile_cons, hl a (List.mem_cons_self ..)]
    simp only [if_true]
    rw [ih (fun c hc => hl c (List.mem_cons_of_mem _ hc))]

/-- Two stored-attachment paths for the same client and `num_str` agree
only if their sequence numbers agree. -/
theorem uploadPath_inj_seq {cid ns : Str} {s1 s2 : Nat} {e1 e2 : Str}
    (he1 : extOkP e1) (he2 : extOkP e2)
    (h : uploadPath cid ns s1 e1 = uploadPath cid ns s2 e2) : s1 = s2 := by
  unfold uploadPath at h
  have h2 : natRepr s1 ++ e1 = natRepr s2 ++ e2 := List.append_cancel_left h
  have h3 : natRepr s1 = natRepr s2 := by
    have t1 := takeWhile_digits_append (natRepr_isDigitCh (n := s1)) he1
    have t2 := takeWhile_digits_append (natRepr_isDigitCh (n := s2)) he2
    rw [← t1, ← t2, h2]
  exact natRepr_inj h3

theorem dread_dwrite_self (d : Disk) (p : Str) (b : Bytes) :
    dread (dwrite d p b) p = some b := by
  simp [dread, dwrite, List.lookup_cons]

theorem dread_dwrite_ne (d : Disk) {p q : Str} (b : Bytes) (h : q ≠ p) :
    dread (dwrite d p b) q = dread d q := by
  simp only [dread, dwrite, List.lookup_cons]
  rw [show (q == p) = false by simpa using h]

theorem foldWrites_cons (cid ns : Str) (s : Nat) (u : Uploaded) (r : List Uploaded)
    (d : Disk) : foldWrites cid ns s (u :: r) d
      = foldWrites cid ns (s + 1) r (dwrite d (uploadPath cid ns s (extOf u)) u.content) := rfl

theorem expPaths_cons (cid ns : Str) (s : Nat) (u : Uploaded) (r : List Uploaded) :
    expPaths cid ns s (u :: r)
      = uploadPath cid ns s (extOf u) :: expPaths cid ns (s + 1) r := rfl

/-- A write at sequence number `seq` or later never touches the path of a
strictly earlier sequence number. -/
theorem foldWrites_read_lt (cid ns : Str) :
    ∀ (ups : List Uploaded) (seq j : Nat) (e : Str) (d : Disk), j < seq → extOkP e →
      dread (foldWrites cid ns seq ups d) (uploadPath cid ns j e)
        = dread d (uploadPath cid ns j e)
  | [], _, _, _, _, _, _ => rfl
  | up :: rest, seq, j, e, d, hj, he => by
    rw [foldWrites_cons]
    rw [foldWrites_read_lt cid ns rest (seq + 1) j e _ (by omega) he]
    apply dread_dwrite_ne
    intro hp
    exact absurd (uploadPath_inj_seq he (extOf_ok up) hp) (by omega)

/-- After `foldWrites`, the file stored for the `i`-th upload is present
with its original content. -/
theorem foldWrites_read_at (cid ns : Str) :
    ∀ (ups : List Uploaded) (seq : Nat) (d : Disk) (i : Nat) (up : Uploaded),
      ups[i]? = some up →
      dread (foldWrites cid ns seq ups d) (uploadPath cid ns (seq + i) (extOf up))
        = some up.content
  | [], _, _, i, _, h => by simp at h
  | up0 :: rest, seq, d, 0, up, h => by
    simp only [List.getElem?_cons_zero, Option.some.injEq] at h
    subst h
    show dread (foldWrites cid ns seq (up0 :: rest) d) (uploadPath cid ns seq (extOf up0))
      = some up0.content
    rw [foldWrites_cons]
    rw [foldWrites_read_lt cid ns rest (seq + 1) seq _ _ (by omega) (extOf_ok up0)]
    exact dread_dwrite_self ..
  | up0 :: rest, seq, d, i + 1, up, h => by
    simp only [List.getElem?_cons_succ] at h
    rw [foldWrites_cons]
    have harith : seq + (i + 1) = (seq + 1) + i := by omega
    rw [harith]
    exact foldWrites_read_at cid ns rest (seq + 1) _ i up h

/-- `uploadFiles` always succeeds when `num_str` is computable, returning
the expected paths and writing each file at its sequence number. -/
theorem uploadFiles_run {numero : PyObj} {ns : Str} (h : numStr numero = some ns) (cid : Str) :
    ∀ (ups : List Uploaded) (seq : Nat) (d : Disk),
      uploadFiles cid numero ups seq d
        = some (expPaths cid ns seq ups, foldWrites cid ns seq ups d)
  | [], _, _ => rfl
  | up :: rest, seq, d => by
    have hrec := uploadFiles_run h cid rest (seq + 1)
      (dwrite d (uploadPath cid ns seq (extOf up)) up.content)
    have hsave : save_uploaded_file cid numero up seq d
        = some (uploadPath cid ns seq (extOf up),
            dwrite d (uploadPath cid ns seq (extOf up)) up.content) := by
      unfold save_uploaded_file
      rw [h]
    show (match save_uploaded_file cid numero up seq d with
      | none => none
      | some (p, d') =>
        match uploadFiles cid numero rest (seq + 1) d' with
        | none => none
        | some (ps, d2) => some (p :: ps, d2)) = _
    rw [hsave]
    dsimp only
    rw [hrec]
    rfl

theorem expPaths_length (cid ns : Str) : ∀ (seq : Nat) (l : List Uploaded),
    (expPaths cid ns seq l).length = l.length
  | _, [] => rfl
  | seq, up :: rest => by
    rw [expPaths_cons]
    simp only [List.length_cons]
    rw [expPaths_length cid ns (seq + 1) rest]

theorem expPaths_append (cid ns : Str) : ∀ (l1 l2 : List Uploaded) (seq : Nat),
    expPaths cid ns seq (l1 ++ l2)
      = expPaths cid ns seq l1 ++ expPaths cid ns (seq + l1.length) l2
  | [], l2, seq => by simp [expPaths]
  | up :: rest, l2, seq => by
    rw [List.cons_append, expPaths_cons, expPaths_cons]
    rw [expPaths_append cid ns rest l2 (seq + 1)]
    rw [List.cons_append, List.length_cons]
    have harith : seq + 1 + rest.length = seq + (rest.length + 1) := by omega
    rw [harith]

theorem foldWrites_append (cid ns : Str) : ∀ (l1 l2 : List Uploaded) (seq : Nat) (d : Disk),
    foldWrites cid ns seq (l1 ++ l2) d
      = foldWrites cid ns (seq + l1.length) l2 (foldWrites cid ns seq l1 d)
  | [], l2, seq, d => by simp [foldWrites]
  | up :: rest, l2, seq, d => by
    rw [List.cons_append, foldWrites_cons, foldWrites_cons]
    rw [foldWrites_append cid ns rest l2 (seq + 1) _]
    rw [List.length_cons]
    have harith : seq + 1 + rest.length = seq + (rest.length + 1) := by omega
    rw [harith]

/-- Running a sequence of batches from an accumulated path list appends
the expected paths and performs the expected writes. -/
theorem runBatches_run {numero : PyObj} {ns : Str} (h : numStr numero = some ns) (cid : Str) :
    ∀ (bs : List (List Uploaded)) (pre : List Str) (d : Disk),
      runBatches cid numero bs (pre, d)
        = some (pre ++ expPaths cid ns (pre.length + 1) bs.flatten,
            foldWrites cid ns (pre.length + 1) bs.flatten d)
  | [], pre, d => by simp [runBatches, expPaths, foldWrites]
  | b :: rest, pre, d => by
    unfold runBatches uploadBatch
    rw [uploadFiles_run h cid b (pre.length + 1) d]
    simp only
    rw [runBatches_run h cid rest (pre ++ expPaths cid ns (pre.length + 1) b) _]
    rw [List.flatten_cons, expPaths_append, foldWrites_append]
    rw [List.length_append, expPaths_length]
    have harith : pre.length + b.length + 1 = pre.length + 1 + b.length := by omega
    rw [harith]
    rw [List.append_assoc]

/-- C2 counterexample: two single-file uploads for the same pair
`(client "c", numero None)`, made on two different `numero`-less
questions, both compute `seq_start = 1` because each question keeps its
own `files` list while the stored file name only encodes `numero`
(`"000"`).  The second upload reuses sequence number 1, stores the same
path `client_data/uploads/c/c_000_justif_1.pdf`, and overwrites the first
file's content `[0]` with `[1]`: the stored sequence numbers are `{1, 1}`,
not `{1, 2}`. -/
theorem upload_seq_claim_cex :
    uploadForQuestion "c".toList ⟨.pnone, 1, [], [], .pnone, [], [], [], []⟩
        [⟨"a.pdf".toList, [0]⟩] [] []
      = some ([("q_1".toList,
            ⟨[], ["client_data/uploads/c/c_000_justif_1.pdf".toList]⟩)],
          [("client_data/uploads/c/c_000_justif_1.pdf".toList, [0])]) ∧
    uploadForQuestion "c".toList ⟨.pnone, 2, [], [], .pnone, [], [], [], []⟩
        [⟨"b.pdf".toList, [1]⟩]
        [("q_1".toList, ⟨[], ["client_data/uploads/c/c_000_justif_1.pdf".toList]⟩)]
        [("client_data/uploads/c/c_000_justif_1.pdf".toList, [0])]
      = some ([("q_2".toList,
            ⟨[], ["client_data/uploads/c/c_000_justif_1.pdf".toList]⟩),
          ("q_1".toList, ⟨[], ["client_data/uploads/c/c_000_justif_1.pdf".toList]⟩)],
          [("client_data/uploads/c/c_000_justif_1.pdf".toList, [1]),
           ("client_data/uploads/c/c_000_justif_1.pdf".toList, [0])]) ∧
    dread [("client_data/uploads/c/c_000_justif_1.pdf".toList, [1]),
        ("client_data/uploads/c/c_000_justif_1.pdf".toList, [0])]
      "client_data/uploads/c/c_000_justif_1.pdf".toList = some [1] :=
  ⟨rfl, rfl, rfl⟩

/-- C2 amended: for a *present integer* `numero` (all uploads for one
`(client, numero)` pair then share one `qkey`, hence one `files` list),
any sequence of batches starting from an empty `files` list succeeds; the
`i`-th uploaded file overall is stored under sequence number `i + 1` (so
the stored sequence numbers are exactly `1..N` with no gaps or repeats),
and after all batches every file is still present with its original
content.  With `numero` absent (`None`), distinct questions share the
`"000"` name stem and files can be silently overwritten, as
`upload_seq_claim_cex` shows. -/
theorem upload_seq_amended (cid : Str) (n : Int) (bs : List (List Uploaded)) (d0 : Disk) :
    runBatches cid (.pint n) bs ([], d0)
      = some (expPaths cid (pad3 n) 1 bs.flatten, foldWrites cid (pad3 n) 1 bs.flatten d0) ∧
    (expPaths cid (pad3 n) 1 bs.flatten).length = bs.flatten.length ∧
    ∀ (i : Nat) (up : Uploaded), bs.flatten[i]? = some up →
      dread (foldWrites cid (pad3 n) 1 bs.flatten d0)
          (uploadPath cid (pad3 n) (1 + i) (extOf up))
        = some up.content := by
  have hns : numStr (.pint n) = some (pad3 n) := rfl
  refine ⟨?_, expPaths_length .., ?_⟩
  · have hrun := runBatches_run hns cid bs [] d0
    simpa using hrun
  · intro i up hi
    exact foldWrites_read_at cid (pad3 n) bs.flatten 1 d0 i up hi

/-- Witness for `upload_seq_amended` on a concrete two-batch run. -/
theorem upload_seq_amended_witness :
    dread (foldWrites "c".toList (pad3 1) 1
        [⟨"a.pdf".toList, [7]⟩, ⟨"b.png".toList, [8]⟩] [])
      (uploadPath "c".toList (pad3 1) (1 + 0) (extOf ⟨"a.pdf".toList, [7]⟩)) = some [7] :=
  (upload_seq_amended "c".toList 1 [[⟨"a.pdf".toList, [7]⟩], [⟨"b.png".toList, [8]⟩]] []).2.2
    0 ⟨"a.pdf".toList, [7]⟩ rfl

/-- C3 counterexample: `numero = "abc"` is present but not coercible to
`int`; `int(numero)` raises `ValueError` and `save_uploaded_file` fails
instead of falling back to `"000"` and returning a path. -/
theorem numstr_claim_cex :
    (PyObj.pstr "abc".toList ≠ PyObj.pnone) ∧
    save_uploaded_file "c".toList (.pstr "abc".toList) ⟨"a.pdf".toList, []⟩ 1 [] = none := by
  constructor
  · decide
  · rfl

/-- C3 amended: the stored name's numeric part is the zero-padded 3-digit
decimal of `int(numero)` when `numero` is an integer, and `"000"` exactly
when `numero` is `None`; when `numero` is a present value on which the
`int()` coercion fails, the exception propagates and the store returns no
path. -/
theorem numstr_amended (cid : Str) (up : Uploaded) (seq : Nat) (d : Disk) :
    (save_uploaded_file cid .pnone up seq d
      = some (uploadPath cid ['0', '0', '0'] seq (extOf up),
          dwrite d (uploadPath cid ['0', '0', '0'] seq (extOf up)) up.content)) ∧
    (∀ n : Int, save_uploaded_file cid (.pint n) up seq d
      = some (uploadPath cid (pad3 n) seq (extOf up),
          dwrite d (uploadPath cid (pad3 n) seq (extOf up)) up.content)) ∧
    (∀ v : PyObj, v ≠ .pnone → pyToInt v = none →
      save_uploaded_file cid v up seq d = none) := by
  refine ⟨rfl, fun n => rfl, fun v hv hint => ?_⟩
  match v with
  | .pnone => exact absurd rfl hv
  | .pint n => exact absurd hint (by simp [pyToInt])
  | .pstr s =>
    have hps : parseIntStr s = none := hint
    have hns : numStr (.pstr s) = none := by
      show (parseIntStr s).map pad3 = none
      rw [hps]
      rfl
    unfold save_uploaded_file
    rw [hns]

/-- Witness for `numstr_amended` at a concrete unparseable `numero`. -/
theorem numstr_amended_witness :
    save_uploaded_file "d".toList (.pstr "xy".toList) ⟨"b.txt".toList, []⟩ 2 [] = none :=
  (numstr_amended "d".toList ⟨"b.txt".toList, []⟩ 2 []).2.2 (.pstr "xy".toList)
    (by decide) rfl

/-! ### Display filters, sorting and the commit loop
(src/app.py lines 165-179, 258-284) -/

/-- Python `needle in hay` with `hay` starting at its head. -/
def strStartsWith : Str → Str → Bool
  | _, [] => true
  | [], _ :: _ => false
  | h :: hs, n :: ns => h == n && strStartsWith hs ns

/-- Python substring test `needle in hay`. -/
def isSubstr (hay needle : Str) : Bool :=
  match hay with
  | [] => needle.isEmpty
  | _ :: hs => strStartsWith hay needle || isSubstr hs needle

/-- The names bound in `match_filters`'s local symbol table when its
`locals()` calls run: only the parameter `q`.  `selected_groups`,
`selected_sc` and `search` live in the module's global namespace, so the
three `'...' in locals()` guards are always false. -/
def matchFiltersLocals : List Str := ["q".toList]

/-- `match_filters` from src/app.py: each filter block runs only under an
`'...' in locals()` guard, and `locals()` inside the function body never
contains those module-level names, so every block is skipped. -/
def matchFilters (selectedGroups selectedSc : List Str) (search : Str) (q : Question) : Bool :=
  if "selected_groups".toList ∈ matchFiltersLocals ∧ q.groupe ∉ selectedGroups then false
  else if "selected_sc".toList ∈ matchFiltersLocals ∧ q.sousCompte ∉ selectedSc then false
  else if "search".toList ∈ matchFiltersLocals ∧ search ≠ [] ∧
      isSubstr ((q.libelle ++ (' ' :: q.questionText)).map pyLower) (search.map pyLower)
        = false then false
  else true

/-- Lexicographic comparison of strings by code point, as Python compares
`str`. -/
def ordStr : Str → Str → Ordering
  | [], [] => .eq
  | [], _ :: _ => .lt
  | _ :: _, [] => .gt
  | a :: as, b :: bs =>
    if a.toNat < b.toNat then .lt
    else if b.toNat < a.toNat then .gt
    else ordStr as bs

def ordInt (a b : Int) : Ordering := if a < b then .lt else if b < a then .gt else .eq

/-- `q.get("numero") or 0` as used by `sort_key`; faithful for integer and
`None` values (a string `numero` would make Python's mixed-type tuple
comparison raise and is outside every claim). -/
def numeroOr0 : PyObj → Int
  | .pint n => n
  | _ => 0

/-- `sort_key(q) = (groupe, sous_compte, numero or 0, date, libelle)`,
compared lexicographically. -/
def sortKeyOrd (a b : Question) : Ordering :=
  (ordStr a.groupe b.groupe).then ((ordStr a.sousCompte b.sousCompte).then
    ((ordInt (numeroOr0 a.numero) (numeroOr0 b.numero)).then
      ((ordStr a.date b.date).then (ordStr a.libelle b.libelle))))

def qLt (a b : Question) : Bool := sortKeyOrd a b == Ordering.lt

/-- Stable insertion of `a` into an already sorted list: `a` goes after
every element strictly smaller and after existing equals. -/
def insertSorted (a : Question) : List Question → List Question
  | [] => [a]
  | b :: bs => if qLt b a then b :: insertSorted a bs else a :: b :: bs

/-- Stable sort by `sort_key`.  Python's `sorted` is a stable sort by the
key tuple; a stable sort by a total preorder is extensionally unique, so
a stable insertion sort models it faithfully. -/
def sortQuestions : List Question → List Question
  | [] => []
  | a :: as => insertSorted a (sortQuestions as)

/-- `questions_sorted = sorted([q for q in questions if match_filters(q)],
key=sort_key)`. -/
def questionsSorted (qs : List Question) (gs scs : List Str) (srch : Str) : List Question :=
  sortQuestions (qs.filter (matchFilters gs scs srch))

theorem insertSorted_mem {a c : Question} : ∀ {l : List Question},
    c ∈ insertSorted a l → c = a ∨ c ∈ l
  | [], h => Or.inl (by simpa [insertSorted] using h)
  | b :: bs, h => by
    unfold insertSorted at h
    by_cases hb : qLt b a
    · rw [if_pos hb] at h
      rcases List.mem_cons.mp h with h1 | h1
      · exact Or.inr (h1 ▸ List.mem_cons_self ..)
      · rcases insertSorted_mem h1 with h2 | h2
        · exact Or.inl h2
        · exact Or.inr (List.mem_cons_of_mem _ h2)
    · rw [if_neg hb] at h
      rcases List.mem_cons.mp h with h1 | h1
      · exact Or.inl h1
      · exact Or.inr h1

theorem sortQuestions_mem {c : Question} : ∀ {l : List Question},
    c ∈ sortQuestions l → c ∈ l
  | [], h => by simp [sortQuestions] at h
  | a :: as, h => by
    unfold sortQuestions at h
    rcases insertSorted_mem h with h1 | h1
    · exact h1 ▸ List.mem_cons_self ..
    · exact List.mem_cons_of_mem _ (sortQuestions_mem h1)

/-- One flattened ledger record: the ordered column/value pairs of the
dict literal built by the commit loop (pandas keeps dict key order as the
CSV column order). -/
abbrev Row := List (Str × PyObj)

/-- The columns the code actually writes, in order. -/
def ledgerCols : List Str :=
  ["timestamp_utc", "client", "numero", "date", "libelle", "montant", "piece",
   "groupe", "sous_compte", "question", "reponse_texte", "justificatifs"].map String.toList

/-- The column list asserted by the spec (C1). -/
def specLedgerCols : List Str :=
  ["client_id", "timestamp_utc", "numero", "date", "libelle", "montant", "piece",
   "groupe", "sous_compte", "question", "reponse_texte", "justificatifs"].map String.toList

/-- `"; ".join(files) if files else ""`. -/
def sjoin (files : List Str) : Str :=
  if files.isEmpty then [] else List.intercalate "; ".toList files

/-- `answers.get(qkey, {}).get("texte", "")`. -/
def texteOf (ans : Answers) (q : Question) : Str := ((ans.lookup (qkey q)).getD ⟨[], []⟩).texte

/-- `answers.get(qkey, {}).get("files", [])`. -/
def filesOf (ans : Answers) (q : Question) : List Str :=
  ((ans.lookup (qkey q)).getD ⟨[], []⟩).files

/-- The dict literal appended to `rows` for one question
(src/app.py lines 269-282). -/
def mkRow (ts cid : Str) (q : Question) (txt : Str) (files : List Str) : Row :=
  [("timestamp_utc".toList, .pstr ts),
   ("client".toList, .pstr cid),
   ("numero".toList, q.numero),
   ("date".toList, .pstr q.date),
   ("libelle".toList, .pstr q.libelle),
   ("montant".toList, q.montant),
   ("piece".toList, .pstr q.piece),
   ("groupe".toList, .pstr q.groupe),
   ("sous_compte".toList, .pstr q.sousCompte),
   ("question".toList, .pstr q.questionText),
   ("reponse_texte".toList, .pstr txt),
   ("justificatifs".toList, .pstr (sjoin files))]

/-- The `rows` list built by the commit loop over `questions_sorted`. -/
def commitRows (ts cid : Str) (qs : List Question) (ans : Answers) (gs scs : List Str)
    (srch : Str) : List Row :=
  (questionsSorted qs gs scs srch).map (fun q => mkRow ts cid q (texteOf ans q) (filesOf ans q))

theorem sjoin_eq (fs : List Str) : sjoin fs = List.intercalate "; ".toList fs := by
  cases fs with
  | nil => rfl
  | cons a as => rfl

/-- C1 counterexample: a concrete commit whose single row has the column
list `timestamp_utc, client, ...` — the first column is `timestamp_utc`,
the client column is named `client` (not `client_id`), so the claimed
column list is wrong. -/
theorem ledger_columns_claim_cex :
    (commitRows "t".toList "c".toList [⟨.pint 1, 0, [], [], .pnone, [], [], [], []⟩]
        [] [] [] []).map (fun r => r.map Prod.fst) = [ledgerCols] ∧
    ledgerCols ≠ specLedgerCols := by
  constructor
  · rfl
  · decide

/-- C1 amended: every row of every commit has exactly the columns, in
order, `timestamp_utc, client, numero, date, libelle, montant, piece,
groupe, sous_compte, question, reponse_texte, justificatifs` (the client
column is named `client` and comes second), and the `justificatifs` value
is the `"; "`-separated (semicolon and space) join of the question's
attachment relative paths (empty string for no attachments). -/
theorem ledger_row_format_amended (ts cid : Str) (qs : List Question) (ans : Answers)
    (gs scs : List Str) (srch : Str) :
    ∀ row ∈ commitRows ts cid qs ans gs scs srch,
      row.map Prod.fst = ledgerCols ∧
      ∃ q, q ∈ qs ∧ row = mkRow ts cid q (texteOf ans q) (filesOf ans q) ∧
        row.lookup "justificatifs".toList
          = some (.pstr (List.intercalate "; ".toList (filesOf ans q))) := by
  intro row hrow
  unfold commitRows at hrow
  rcases List.mem_map.mp hrow with ⟨q, hq, hrow'⟩
  have hqin : q ∈ qs := by
    unfold questionsSorted at hq
    exact (List.mem_filter.mp (sortQuestions_mem hq)).1
  subst hrow'
  refine ⟨rfl, q, hqin, rfl, ?_⟩
  rw [← sjoin_eq]
  rfl

/-- Witness for `ledger_row_format_amended` at a concrete commit. -/
theorem ledger_row_format_amended_witness :
    (mkRow "t".toList "c".toList ⟨.pint 2, 0, [], [], .pnone, [], [], [], []⟩ [] []).map
        Prod.fst = ledgerCols :=
  (ledger_row_format_amended "t".toList "c".toList
      [⟨.pint 2, 0, [], [], .pnone, [], [], [], []⟩] [] [] [] []
      (mkRow "t".toList "c".toList ⟨.pint 2, 0, [], [], .pnone, [], [], [], []⟩ [] [])
      (by decide)).1

/-- C10: the code-level intent (and the claim) is that commit rows cover
exactly the questions matching the selected display filters; but each
filter block in `match_filters` is guarded by `'...' in locals()`, which
is always false inside the function, so `match_filters` returns `True`
unconditionally.  Here a question whose `groupe`, `sous_compte` and text
all fail the active filters still produces a commit row. -/
theorem filters_ignored_on_commit :
    matchFilters ["B".toList] ["S".toList] "zz".toList
        ⟨.pint 1, 0, [], [], .pnone, [], "A".toList, [], []⟩ = true ∧
    commitRows "t".toList "c".toList
        [⟨.pint 1, 0, [], [], .pnone, [], "A".toList, [], []⟩]
        [] ["B".toList] ["S".toList] "zz".toList
      = [mkRow "t".toList "c".toList ⟨.pint 1, 0, [], [], .pnone, [], "A".toList, [], []⟩
          [] []] := by
  constructor
  · rfl
  · rfl

/-! ### Ledger persistence (src/app.py lines 88-99)

The ledger file is CSV text, and `append_responses_csv` re-reads the
whole file through `pd.read_csv` on every commit (line 95) before
concatenating and rewriting it with `to_csv` (line 99).  The stored
state is modelled as the list of data rows, each row the list of its
cell texts (what stands between the commas after CSV unquoting; the
quote/escape framing of `to_csv`/`read_csv` is a lossless bijection on
cell texts and is abstracted away).  What is *not* lossless — and is
modelled — is `read_csv`'s per-column type inference and NA filtering:
an all-integer-literal column is parsed as `int64` (so `"007"` is
rewritten `"7"`), an integer-or-blank column as `float64` (so `"1"` is
rewritten `"1.0"` and blanks stay empty), NA sentinel strings such as
`"NA"` become NaN and are written back empty, and everything else is
kept as text.  The modelled cell fragment is integer literals, the NA
sentinels, and other plain strings; float literals and float values
(and the `"-0"` sign-of-zero corner) are outside the fragment, as
floats are everywhere else in this development. -/

/-- A parsed JSON value.  Numbers are restricted to the integers; the
draft files under study never contain numbers. -/
inductive JVal where
  | jstr : Str → JVal
  | jnum : Int → JVal
  | jbool : Bool → JVal
  | jnull : JVal
  | jarr : List JVal → JVal
  | jobj : List (Str × JVal) → JVal

def lbrace : Char := Char.ofNat 123

def rbrace : Char := Char.ofNat 125

def hexDigitCh (n : Nat) : Char :=
  if n < 10 then Char.ofNat (48 + n) else Char.ofNat (87 + n)

/-- `json.encoder.py_encode_basestring` with `ensure_ascii=False`: escape
backslash, double quote and control characters (short escapes for the
common ones, `\u00XX` otherwise); everything else is passed through. -/
def escChar (c : Char) : Str :=
  if c = '\\' then ['\\', '\\']
  else if c = '"' then ['\\', '"']
  else if c = '\n' then ['\\', 'n']
  else if c = '\t' then ['\\', 't']
  else if c = '\r' then ['\\', 'r']
  else if c.toNat = 8 then ['\\', 'b']
  else if c.toNat = 12 then ['\\', 'f']
  else if c.toNat < 32 then
    ['\\', 'u', '0', '0', hexDigitCh (c.toNat / 16), hexDigitCh (c.toNat % 16)]
  else [c]

def escBody (s : Str) : Str := (s.map escChar).flatten

/-- A JSON string literal. -/
def encString (s : Str) : Str := '"' :: (escBody s ++ ['"'])

def spaces (n : Nat) : Str := List.replicate n ' '

/-- `json.dumps(files, ensure_ascii=False, indent=2)` of a string list at
nesting indent `ind`: tail items after the first, each on its own line,
with the closing bracket at the outer indent. -/
def encFilesTail (ind indOut : Nat) : List Str → Str
  | [] => '\n' :: (spaces indOut ++ [']'])
  | s :: ss => ',' :: '\n' :: (spaces ind ++ (encString s ++ encFilesTail ind indOut ss))

/-- The serialised `files` array at outer indent `ind`. -/
def encFilesArr (ind : Nat) : List Str → Str
  | [] => ['[', ']']
  | s :: ss => '[' :: '\n' :: (spaces (ind + 2) ++ (encString s ++ encFilesTail (ind + 2) ind ss))

/-- The serialised `{"texte": ..., "files": [...]}` entry object at outer
indent `ind`. -/
def encEntry (ind : Nat) (e : Entry) : Str :=
  lbrace :: '\n' ::
    (spaces (ind + 2) ++ (encString "texte".toList ++ (':' :: ' ' :: (encString e.texte ++
      (',' :: '\n' :: (spaces (ind + 2) ++ (encString "files".toList ++ (':' :: ' ' ::
        (encFilesArr (ind + 2) e.files ++ ('\n' :: (spaces ind ++ [rbrace])))))))))))

/-- The in-memory draft: question key to answer entry, in insertion
order (`json.dumps`/`json.loads` both preserve member order). -/
abbrev Draft := List (Str × Entry)

/-- Draft members after the first, at indent 2 with the closing brace at
column 0. -/
def encDraftTail : Draft → Str
  | [] => '\n' :: [rbrace]
  | (k, e) :: rest =>
    ',' :: '\n' :: (spaces 2 ++ (encString k ++ (':' :: ' ' :: (encEntry 2 e ++ encDraftTail rest))))

/-- `json.dumps(draft, ensure_ascii=False, indent=2)` of a draft mapping. -/
def encDraft : Draft → Str
  | [] => [lbrace, rbrace]
  | (k, e) :: rest =>
    lbrace :: '\n' :: (spaces 2 ++ (encString k ++ (':' :: ' ' :: (encEntry 2 e ++ encDraftTail rest))))

/-- The JSON value denoted by an entry. -/
def entryToJ (e : Entry) : JVal :=
  .jobj [("texte".toList, .jstr e.texte), ("files".toList, .jarr (e.files.map JVal.jstr))]

/-- The JSON value denoted by a draft. -/
def draftToJ (d : Draft) : JVal := .jobj (d.map (fun kv => (kv.1, entryToJ kv.2)))

/-! #### The `json.loads` model -/

def wsChar (c : Char) : Bool := c == ' ' || c == '\t' || c == '\n' || c == '\r'

def skipWs (s : Str) : Str := s.dropWhile wsChar

def hexVal (c : Char) : Option Nat :=
  if 48 ≤ c.toNat ∧ c.toNat ≤ 57 then some (c.toNat - 48)
  else if 97 ≤ c.toNat ∧ c.toNat ≤ 102 then some (c.toNat - 87)
  else if 65 ≤ c.toNat ∧ c.toNat ≤ 70 then some (c.toNat - 55)
  else none

/-- `py_scanstring` after the opening quote (strict mode): plain
characters up to the closing quote, backslash escapes, `\uXXXX` code
units; raw control characters are rejected.  Lone surrogates, which
Python would keep as unpaired code units, have no `Char` representation
and are rejected; the serialiser never produces them. -/
def parseStringBody : Nat → Str → Option (Str × Str)
  | 0, _ => none
  | _ + 1, [] => none
  | f + 1, c :: rest =>
    if c = '"' then some ([], rest)
    else if c = '\\' then
      match rest with
      | '"' :: r => (parseStringBody f r).map (fun x => ('"' :: x.1, x.2))
      | '\\' :: r => (parseStringBody f r).map (fun x => ('\\' :: x.1, x.2))
      | '/' :: r => (parseStringBody f r).map (fun x => ('/' :: x.1, x.2))
      | 'b' :: r => (parseStringBody f r).map (fun x => (Char.ofNat 8 :: x.1, x.2))
      | 'f' :: r => (parseStringBody f r).map (fun x => (Char.ofNat 12 :: x.1, x.2))
      | 'n' :: r => (parseStringBody f r).map (fun x => ('\n' :: x.1, x.2))
      | 'r' :: r => (parseStringBody f r).map (fun x => ('\r' :: x.1, x.2))
      | 't' :: r => (parseStringBody f r).map (fun x => ('\t' :: x.1, x.2))
      | 'u' :: h1 :: h2 :: h3 :: h4 :: r =>
        match hexVal h1, hexVal h2, hexVal h3, hexVal h4 with
        | some a, some b, some c2, some d =>
          if ((a * 16 + b) * 16 + c2) * 16 + d < 55296 ∨
              57343 < ((a * 16 + b) * 16 + c2) * 16 + d then
            (parseStringBody f r).map
              (fun x => (Char.ofNat (((a * 16 + b) * 16 + c2) * 16 + d) :: x.1, x.2))
          else none
        | _, _, _, _ => none
      | _ => none
    else if c.toNat < 32 then none
    else (parseStringBody f rest).map (fun x => (c :: x.1, x.2))

/-- String scanning consumes at least one character per step, so
`length + 1` fuel always suffices. -/
def parseStr (s : Str) : Option (Str × Str) := parseStringBody (s.length + 1) s

/-- The integer part of the JSON number grammar; a fractional part or
exponent (floats) is out of the modelled fragment and rejected. -/
def parseNumNat (s : Str) : Option (Nat × Str) :=
  if (s.takeWhile isDigitCh).isEmpty then none
  else if 1 < (s.takeWhile isDigitCh).length ∧ (s.takeWhile isDigitCh).head? = some '0' then none
  else match s.drop (s.takeWhile isDigitCh).length with
    | '.' :: _ => none
    | 'e' :: _ => none
    | 'E' :: _ => none
    | rest => some (decodeNat (s.takeWhile isDigitCh), rest)

def parseNum (s : Str) : Option (JVal × Str) :=
  match s with
  | '-' :: rest => (parseNumNat rest).map (fun x => (JVal.jnum (-(x.1 : Int)), x.2))
  | _ => (parseNumNat s).map (fun x => (JVal.jnum ((x.1 : Nat) : Int), x.2))

mutual

/-- `json.scanner.py_make_scanner`'s `scan_once`: dispatch on the first
character; the caller has already skipped leading whitespace. -/
def parseVal : Nat → Str → Option (JVal × Str)
  | 0, _ => none
  | f + 1, s =>
    match s with
    | [] => none
    | '"' :: r => (parseStr r).map (fun x => (JVal.jstr x.1, x.2))
    | '[' :: r =>
      (match skipWs r with
      | [] => none
      | c :: r2 =>
        if c = ']' then some (.jarr [], r2)
        else (parseItems f (c :: r2)).map (fun x => (JVal.jarr x.1, x.2)))
    | 't' :: 'r' :: 'u' :: 'e' :: r => some (.jbool true, r)
    | 'f' :: 'a' :: 'l' :: 's' :: 'e' :: r => some (.jbool false, r)
    | 'n' :: 'u' :: 'l' :: 'l' :: r => some (.jnull, r)
    | c :: r =>
      if c = lbrace then
        (match skipWs r with
        | [] => none
        | c2 :: r2 =>
          if c2 = rbrace then some (.jobj [], r2)
          else (parseMembers f (c2 :: r2)).map (fun x => (JVal.jobj x.1, x.2)))
      else parseNum (c :: r)

/-- `JSONObject`'s member loop: `"key"`, optional whitespace, `:`,
optional whitespace, a value, then `,` (more members) or the closing
brace. -/
def parseMembers : Nat → Str → Option (List (Str × JVal) × Str)
  | 0, _ => none
  | f + 1, s =>
    match s with
    | '"' :: r =>
      (match parseStr r with
      | none => none
      | some (k, r1) =>
        match skipWs r1 with
        | ':' :: r2 =>
          (match parseVal f (skipWs r2) with
          | none => none
          | some (v, r3) =>
            match skipWs r3 with
            | ',' :: r4 =>
              (match parseMembers f (skipWs r4) with
              | none => none
              | some (ms, r5) => some ((k, v) :: ms, r5))
            | c :: r4 => if c = rbrace then some ([(k, v)], r4) else none
            | [] => none)
        | _ => none)
    | _ => none

/-- `JSONArray`'s item loop: a value, then `,` (more items) or `]`. -/
def parseItems : Nat → Str → Option (List JVal × Str)
  | 0, _ => none
  | f + 1, s =>
    match parseVal f s with
    | none => none
    | some (v, r1) =>
      match skipWs r1 with
      | ',' :: r2 =>
        (match parseItems f (skipWs r2) with
        | none => none
        | some (vs, r3) => some (v :: vs, r3))
      | ']' :: r2 => some ([v], r2)
      | _ => none

end

/-- `json.loads`: skip leading whitespace, scan one value, and require
only whitespace to remain.  Every fuel decrement follows the consumption
of at least one input character, so `length + 1` fuel suffices for any
input. -/
def parseTop (txt : Str) : Option JVal :=
  match parseVal (txt.length + 1) (skipWs txt) with
  | none => none
  | some (v, rest) => if skipWs rest = [] then some v else none

/-! #### The draft store -/

/-- The draft files, keyed by client slug (`DRAFTS_DIR/{slug}.json`);
`write_text` overwrites, modelled by shadowing. -/
abbrev DraftFS := List (Str × Str)

/-- `save_draft`: serialise the whole answers mapping and overwrite the
client's draft file. -/
def save_draft (fs : DraftFS) (cid : Str) (answers : Draft) : DraftFS :=
  (slugify cid, encDraft answers) :: fs

/-- `load_draft`: return the parsed draft file, or `{}` when the file
does not exist or `json.loads` raises. -/
def load_draft (fs : DraftFS) (cid : Str) : JVal :=
  match fs.lookup (slugify cid) with
  | none => .jobj []
  | some txt =>
    match parseTop txt with
    | none => .jobj []
    | some v => v

/-- Decode a parsed JSON value back into a string list. -/
def strsOf : List JVal → Option (List Str)
  | [] => some []
  | .jstr s :: rest => (strsOf rest).map (fun l => s :: l)
  | _ => none

/-- Decode a parsed JSON value back into an `Entry`. -/
def jToEntry : JVal → Option Entry
  | .jobj [(k1, .jstr t), (k2, .jarr fs)] =>
    if k1 = "texte".toList ∧ k2 = "files".toList then
      (strsOf fs).map (fun l => ⟨t, l⟩)
    else none
  | _ => none

def jToDraftList : List (Str × JVal) → Option Draft
  | [] => some []
  | (k, v) :: rest =>
    match jToEntry v, jToDraftList rest with
    | some e, some d => some ((k, e) :: d)
    | _, _ => none

/-- Decode a parsed JSON value back into a `Draft`. -/
def jToDraft : JVal → Option Draft
  | .jobj ms => jToDraftList ms
  | _ => none

/-! #### Round-trip of the draft serialisation through the parser -/

theorem skipWs_cons_ws {c : Char} (s : Str) (h : wsChar c = true) :
    skipWs (c :: s) = skipWs s := by
  unfold skipWs
  rw [List.dropWhile_cons, h]
  simp

theorem skipWs_cons_not {c : Char} (s : Str) (h : wsChar c = false) :
    skipWs (c :: s) = c :: s := by
  unfold skipWs
  rw [List.dropWhile_cons, h]
  simp

theorem skipWs_spaces (s : Str) : ∀ n : Nat, skipWs (spaces n ++ s) = skipWs s
  | 0 => rfl
  | n + 1 => by
    unfold spaces
    rw [List.replicate_succ, List.cons_append, skipWs_cons_ws _ (by decide)]
    exact skipWs_spaces s n

theorem hexVal_hexDigitCh {n : Nat} (h : n < 16) : hexVal (hexDigitCh n) = some n := by
  by_cases h10 : n < 10
  · have hd : hexDigitCh n = Char.ofNat (48 + n) := by unfold hexDigitCh; rw [if_pos h10]
    have ht : (Char.ofNat (48 + n)).toNat = 48 + n := toNat_ofNat_lt (by omega)
    rw [hd]
    unfold hexVal
    rw [ht, if_pos (by omega)]
    congr 1
    omega
  · have hd : hexDigitCh n = Char.ofNat (87 + n) := by unfold hexDigitCh; rw [if_neg h10]
    have ht : (Char.ofNat (87 + n)).toNat = 87 + n := toNat_ofNat_lt (by omega)
    rw [hd]
    unfold hexVal
    rw [ht, if_neg (by omega), if_pos (by omega)]
    congr 1
    omega

/-- Unfolding equation for one scanning step on a `\uXXXX` escape. -/
theorem parseStringBody_u (f : Nat) (a b : Char) (tail : Str) :
    parseStringBody (f + 1) ('\\' :: 'u' :: '0' :: '0' :: a :: b :: tail)
      = match hexVal '0', hexVal '0', hexVal a, hexVal b with
        | some x1, some x2, some x3, some x4 =>
          if ((x1 * 16 + x2) * 16 + x3) * 16 + x4 < 55296 ∨
              57343 < ((x1 * 16 + x2) * 16 + x3) * 16 + x4 then
            (parseStringBody f tail).map
              (fun x => (Char.ofNat (((x1 * 16 + x2) * 16 + x3) * 16 + x4) :: x.1, x.2))
          else none
        | _, _, _, _ => none := rfl

/-- Unfolding equation for one scanning step on an unescaped character. -/
theorem parseStringBody_plain (f : Nat) (c : Char) (tail : Str) (hq : ¬c = '"')
    (hb : ¬c = '\\') (hc : ¬c.toNat < 32) :
    parseStringBody (f + 1) (c :: tail)
      = (parseStringBody f tail).map (fun x => (c :: x.1, x.2)) := by
  have hstep : parseStringBody (f + 1) (c :: tail)
      = if c = '"' then some ([], tail)
        else if c = '\\' then
          (match tail with
          | '"' :: r => (parseStringBody f r).map (fun x => ('"' :: x.1, x.2))
          | '\\' :: r => (parseStringBody f r).map (fun x => ('\\' :: x.1, x.2))
          | '/' :: r => (parseStringBody f r).map (fun x => ('/' :: x.1, x.2))
          | 'b' :: r => (parseStringBody f r).map (fun x => (Char.ofNat 8 :: x.1, x.2))
          | 'f' :: r => (parseStringBody f r).map (fun x => (Char.ofNat 12 :: x.1, x.2))
          | 'n' :: r => (parseStringBody f r).map (fun x => ('\n' :: x.1, x.2))
          | 'r' :: r => (parseStringBody f r).map (fun x => ('\r' :: x.1, x.2))
          | 't' :: r => (parseStringBody f r).map (fun x => ('\t' :: x.1, x.2))
          | 'u' :: h1 :: h2 :: h3 :: h4 :: r =>
            (match hexVal h1, hexVal h2, hexVal h3, hexVal h4 with
            | some a, some b, some c2, some d =>
              if ((a * 16 + b) * 16 + c2) * 16 + d < 55296 ∨
                  57343 < ((a * 16 + b) * 16 + c2) * 16 + d then
                (parseStringBody f r).map
                  (fun x => (Char.ofNat (((a * 16 + b) * 16 + c2) * 16 + d) :: x.1, x.2))
              else none
            | _, _, _, _ => none)
          | _ => none)
        else if c.toNat < 32 then none
        else (parseStringBody f tail).map (fun x => (c :: x.1, x.2)) := rfl
  rw [hstep, if_neg hq, if_neg hb, if_neg hc]

/-- One escaped character is scanned back to the character, at the cost of
one fuel tick. -/
theorem parseStringBody_step (f : Nat) (c : Char) (tail : Str) :
    parseStringBody (f + 1) (escChar c ++ tail)
      = (parseStringBody f tail).map (fun x => (c :: x.1, x.2)) := by
  unfold escChar
  split_ifs with h1 h2 h3 h4 h5 h6 h7 h8
  · subst h1; rfl
  · subst h2; rfl
  · subst h3; rfl
  · subst h4; rfl
  · subst h5; rfl
  · have hc : c = Char.ofNat 8 := by rw [← h6, Char.ofNat_toNat]
    subst hc; rfl
  · have hc : c = Char.ofNat 12 := by rw [← h7, Char.ofNat_toNat]
    subst hc; rfl
  · -- the `\u00XX` escape for the remaining control characters
    have hhi : hexVal (hexDigitCh (c.toNat / 16)) = some (c.toNat / 16) :=
      hexVal_hexDigitCh (by omega)
    have hlo : hexVal (hexDigitCh (c.toNat % 16)) = some (c.toNat % 16) :=
      hexVal_hexDigitCh (by omega)
    show parseStringBody (f + 1)
        ('\\' :: 'u' :: '0' :: '0' :: hexDigitCh (c.toNat / 16) ::
          hexDigitCh (c.toNat % 16) :: tail) = _
    rw [parseStringBody_u]
    have h0 : hexVal '0' = some 0 := by decide
    simp only [h0, hhi, hlo]
    rw [if_pos (Or.inl (by omega))]
    have hcode : ((0 * 16 + 0) * 16 + c.toNat / 16) * 16 + c.toNat % 16 = c.toNat := by omega
    rw [hcode, Char.ofNat_toNat]
  · show parseStringBody (f + 1) (c :: tail) = _
    exact parseStringBody_plain f c tail h2 h1 (by omega)

theorem escBody_nil : escBody [] = [] := rfl

theorem escBody_cons (c : Char) (cs : Str) : escBody (c :: cs) = escChar c ++ escBody cs := by
  unfold escBody
  rw [List.map_cons, List.flatten_cons]

/-- Scanning the escaped body of `s` followed by the closing quote yields
`s`, given fuel exceeding the length of `s`. -/
theorem parseStringBody_enc : ∀ (s : Str) (f : Nat) (rest : Str), s.length < f →
    parseStringBody f (escBody s ++ ('"' :: rest)) = some (s, rest)
  | [], f, rest, hf => by
    obtain ⟨f', rfl⟩ := Nat.exists_eq_succ_of_ne_zero (by omega : f ≠ 0)
    rw [escBody_nil, List.nil_append]
    rfl
  | c :: cs, f, rest, hf => by
    obtain ⟨f', rfl⟩ := Nat.exists_eq_succ_of_ne_zero (by omega : f ≠ 0)
    rw [escBody_cons, List.append_assoc, parseStringBody_step]
    rw [parseStringBody_enc cs f' rest (by simpa using Nat.lt_of_succ_lt_succ hf)]
    rfl

theorem escChar_len (c : Char) : 1 ≤ (escChar c).length := by
  unfold escChar
  split_ifs <;> simp

theorem escBody_len : ∀ s : Str, s.length ≤ (escBody s).length
  | [] => Nat.le_refl _
  | c :: cs => by
    rw [escBody_cons, List.length_append, List.length_cons]
    have h1 := escChar_len c
    have h2 := escBody_len cs
    omega

/-- `parseStr` (whose fuel is the input length plus one) scans an escaped
string body back to the original string. -/
theorem parseStr_enc (s rest : Str) : parseStr (escBody s ++ ('"' :: rest)) = some (s, rest) := by
  unfold parseStr
  apply parseStringBody_enc
  have h1 := escBody_len s
  rw [List.length_append]
  simp only [List.length_cons]
  omega

theorem encString_append (s X : Str) :
    encString s ++ X = '"' :: (escBody s ++ ('"' :: X)) := by
  unfold encString
  rw [List.cons_append, List.append_assoc]
  rfl

/-- A serialised string parses as a `jstr` value. -/
theorem parseVal_str (s rest : Str) (f : Nat) (hf : 1 ≤ f) :
    parseVal f (encString s ++ rest) = some (.jstr s, rest) := by
  obtain ⟨f', rfl⟩ := Nat.exists_eq_succ_of_ne_zero (by omega : f ≠ 0)
  rw [encString_append]
  show (parseStr (escBody s ++ ('"' :: rest))).map (fun x => (JVal.jstr x.1, x.2))
    = some (.jstr s, rest)
  rw [parseStr_enc]
  rfl

theorem skipWs_nl (s : Str) : skipWs ('\n' :: s) = skipWs s := skipWs_cons_ws s (by decide)

theorem skipWs_quote (s : Str) : skipWs ('"' :: s) = '"' :: s := skipWs_cons_not s (by decide)

theorem skipWs_comma (s : Str) : skipWs (',' :: s) = ',' :: s := skipWs_cons_not s (by decide)

theorem skipWs_colon (s : Str) : skipWs (':' :: s) = ':' :: s := skipWs_cons_not s (by decide)

theorem skipWs_rbracket (s : Str) : skipWs (']' :: s) = ']' :: s := skipWs_cons_not s (by decide)

theorem skipWs_lbracket (s : Str) : skipWs ('[' :: s) = '[' :: s := skipWs_cons_not s (by decide)

theorem skipWs_rbrace (s : Str) : skipWs (rbrace :: s) = rbrace :: s :=
  skipWs_cons_not s (by decide)

theorem skipWs_lbrace (s : Str) : skipWs (lbrace :: s) = lbrace :: s :=
  skipWs_cons_not s (by decide)

theorem skipWs_sp (s : Str) : skipWs (' ' :: s) = skipWs s := skipWs_cons_ws s (by decide)

/-- Unfolding equation for `parseVal` on an array opener. -/
theorem parseVal_arr_eq (f : Nat) (r : Str) :
    parseVal (f + 1) ('[' :: r)
      = (match skipWs r with
        | [] => none
        | c :: r2 =>
          if c = ']' then some (.jarr [], r2)
          else (parseItems f (c :: r2)).map (fun x => (JVal.jarr x.1, x.2))) := rfl

/-- Unfolding equation for `parseVal` on an object opener. -/
theorem parseVal_obj_eq (f : Nat) (r : Str) :
    parseVal (f + 1) (lbrace :: r)
      = (match skipWs r with
        | [] => none
        | c2 :: r2 =>
          if c2 = rbrace then some (.jobj [], r2)
          else (parseMembers f (c2 :: r2)).map (fun x => (JVal.jobj x.1, x.2))) := rfl

/-- Unfolding equation for `parseItems`. -/
theorem parseItems_eq (f : Nat) (s : Str) :
    parseItems (f + 1) s
      = (match parseVal f s with
        | none => none
        | some (v, r1) =>
          match skipWs r1 with
          | ',' :: r2 =>
            (match parseItems f (skipWs r2) with
            | none => none
            | some (vs, r3) => some (v :: vs, r3))
          | ']' :: r2 => some ([v], r2)
          | _ => none) := rfl

/-- Unfolding equation for `parseMembers` on a key opener. -/
theorem parseMembers_eq (f : Nat) (r : Str) :
    parseMembers (f + 1) ('"' :: r)
      = (match parseStr r with
        | none => none
        | some (k, r1) =>
          match skipWs r1 with
          | ':' :: r2 =>
            (match parseVal f (skipWs r2) with
            | none => none
            | some (v, r3) =>
              match skipWs r3 with
              | ',' :: r4 =>
                (match parseMembers f (skipWs r4) with
                | none => none
                | some (ms, r5) => some ((k, v) :: ms, r5))
              | c :: r4 => if c = rbrace then some ([(k, v)], r4) else none
              | [] => none)
          | _ => none) := rfl

/-- The item loop scans the remaining serialised `files` items. -/
theorem parseItems_files (ind indOut : Nat) :
    ∀ (s : Str) (ss : List Str) (f : Nat) (close : Str), ss.length + 2 ≤ f →
      parseItems f (encString s ++ (encFilesTail ind indOut ss ++ close))
        = some ((s :: ss).map JVal.jstr, close)
  | s, [], f, close, hf => by
    obtain ⟨f', rfl⟩ := Nat.exists_eq_succ_of_ne_zero (by omega : f ≠ 0)
    rw [parseItems_eq]
    rw [parseVal_str s _ f' (by omega)]
    show (match skipWs (encFilesTail ind indOut [] ++ close) with
      | ',' :: r2 =>
        (match parseItems f' (skipWs r2) with
        | none => none
        | some (vs, r3) => some (JVal.jstr s :: vs, r3))
      | ']' :: r2 => some ([JVal.jstr s], r2)
      | _ => none) = some ([s].map JVal.jstr, close)
    unfold encFilesTail
    rw [List.cons_append, List.append_assoc, List.singleton_append, skipWs_nl,
      skipWs_spaces, skipWs_rbracket]
    rfl
  | s, s2 :: ss, f, close, hf => by
    obtain ⟨f', rfl⟩ := Nat.exists_eq_succ_of_ne_zero (by omega : f ≠ 0)
    rw [parseItems_eq]
    rw [parseVal_str s _ f' (by omega)]
    show (match skipWs (encFilesTail ind indOut (s2 :: ss) ++ close) with
      | ',' :: r2 =>
        (match parseItems f' (skipWs r2) with
        | none => none
        | some (vs, r3) => some (JVal.jstr s :: vs, r3))
      | ']' :: r2 => some ([JVal.jstr s], r2)
      | _ => none) = some ((s :: s2 :: ss).map JVal.jstr, close)
    unfold encFilesTail
    rw [List.cons_append, List.cons_append, skipWs_comma]
    show (match parseItems f'
        (skipWs ('\n' :: ((spaces ind ++ (encString s2 ++ encFilesTail ind indOut ss)) ++ close))) with
      | none => none
      | some (vs, r3) => some (JVal.jstr s :: vs, r3)) = some ((s :: s2 :: ss).map JVal.jstr, close)
    rw [skipWs_nl, List.append_assoc, skipWs_spaces, List.append_assoc, encString_append,
      skipWs_quote, ← encString_append]
    rw [parseItems_files ind indOut s2 ss f' close
      (by simp only [List.length_cons] at hf; omega)]
    rfl

theorem parseVal_arr_cons (f : Nat) (r : Str) (c : Char) (r2 : Str)
    (hs : skipWs r = c :: r2) (hc : ¬c = ']') :
    parseVal (f + 1) ('[' :: r)
      = (parseItems f (c :: r2)).map (fun x => (JVal.jarr x.1, x.2)) := by
  rw [parseVal_arr_eq, hs]
  dsimp only
  rw [if_neg hc]

theorem parseVal_obj_cons (f : Nat) (r : Str) (c : Char) (r2 : Str)
    (hs : skipWs r = c :: r2) (hc : ¬c = rbrace) :
    parseVal (f + 1) (lbrace :: r)
      = (parseMembers f (c :: r2)).map (fun x => (JVal.jobj x.1, x.2)) := by
  rw [parseVal_obj_eq, hs]
  dsimp only
  rw [if_neg hc]

/-- A serialised `files` array parses as the corresponding `jarr`. -/
theorem parseVal_files (ind : Nat) :
    ∀ (files : List Str) (f : Nat) (close : Str), files.length + 2 ≤ f →
      parseVal f (encFilesArr ind files ++ close)
        = some (.jarr (files.map JVal.jstr), close)
  | [], f, close, hf => by
    obtain ⟨f', rfl⟩ := Nat.exists_eq_succ_of_ne_zero (by omega : f ≠ 0)
    show parseVal (f' + 1) ('[' :: (']' :: close)) = some (.jarr [], close)
    rw [parseVal_arr_eq, skipWs_rbracket]
    rfl
  | s :: ss, f, close, hf => by
    obtain ⟨f', rfl⟩ := Nat.exists_eq_succ_of_ne_zero (by omega : f ≠ 0)
    show parseVal (f' + 1)
      ('[' :: ('\n' :: ((spaces (ind + 2)
        ++ (encString s ++ encFilesTail (ind + 2) ind ss)) ++ close)))
      = some (.jarr ((s :: ss).map JVal.jstr), close)
    rw [parseVal_arr_cons f' _ '"'
        (escBody s ++ ('"' :: (encFilesTail (ind + 2) ind ss ++ close)))
        (by rw [skipWs_nl, List.append_assoc, skipWs_spaces, List.append_assoc,
          encString_append, skipWs_quote])
        (by decide)]
    rw [← encString_append]
    rw [parseItems_files (ind + 2) ind s ss f' close
      (by simp only [List.length_cons] at hf; omega)]
    rfl

/-- One `"key": value` member step of the object scanner, for a value
whose serialisation is scanned by `parseVal` after the `": "`. -/
theorem parseMembers_one (f : Nat) (k : Str) (VREST : Str) (v : JVal) (r3 : Str)
    (hv : parseVal f (skipWs (' ' :: VREST)) = some (v, r3)) :
    parseMembers (f + 1) ('"' :: (escBody k ++ ('"' :: (':' :: (' ' :: VREST)))))
      = (match skipWs r3 with
        | ',' :: r4 =>
          (match parseMembers f (skipWs r4) with
          | none => none
          | some (ms, r5) => some ((k, v) :: ms, r5))
        | c :: r4 => if c = rbrace then some ([(k, v)], r4) else none
        | [] => none) := by
  rw [parseMembers_eq, parseStr_enc]
  dsimp only
  rw [skipWs_colon]
  show (match parseVal f (skipWs (' ' :: VREST)) with
    | none => none
    | some (v, r3) =>
      match skipWs r3 with
      | ',' :: r4 =>
        (match parseMembers f (skipWs r4) with
        | none => none
        | some (ms, r5) => some ((k, v) :: ms, r5))
      | c :: r4 => if c = rbrace then some ([(k, v)], r4) else none
      | [] => none) = _
  rw [hv]

theorem encFilesArr_head (ind : Nat) (files : List Str) (X : Str) :
    skipWs (encFilesArr ind files ++ X) = encFilesArr ind files ++ X := by
  cases files with
  | nil => exact skipWs_lbracket _
  | cons a as => exact skipWs_lbracket _

/-- A serialised entry object parses as `entryToJ`. -/
theorem parseVal_entry (ind : Nat) (e : Entry) (f : Nat) (close : Str)
    (hf : e.files.length + 6 ≤ f) :
    parseVal f (encEntry ind e ++ close) = some (entryToJ e, close) := by
  obtain ⟨f1, rfl⟩ := Nat.exists_eq_succ_of_ne_zero (by omega : f ≠ 0)
  obtain ⟨f2, rfl⟩ := Nat.exists_eq_succ_of_ne_zero (by omega : f1 ≠ 0)
  obtain ⟨f3, rfl⟩ := Nat.exists_eq_succ_of_ne_zero (by omega : f2 ≠ 0)
  have hnorm : encEntry ind e ++ close
      = lbrace :: '\n' :: (spaces (ind + 2) ++ (encString "texte".toList
        ++ ':' :: ' ' :: (encString e.texte ++ ',' :: '\n' :: (spaces (ind + 2)
          ++ (encString "files".toList ++ ':' :: ' ' :: (encFilesArr (ind + 2) e.files
            ++ '\n' :: (spaces ind ++ rbrace :: close))))))) := by
    unfold encEntry
    simp only [List.cons_append, List.append_assoc, List.singleton_append, List.nil_append]
  rw [hnorm]
  have hs1 : skipWs ('\n' :: (spaces (ind + 2) ++ (encString "texte".toList
        ++ ':' :: ' ' :: (encString e.texte ++ ',' :: '\n' :: (spaces (ind + 2)
          ++ (encString "files".toList ++ ':' :: ' ' :: (encFilesArr (ind + 2) e.files
            ++ '\n' :: (spaces ind ++ rbrace :: close))))))))
      = '"' :: (escBody "texte".toList
        ++ '"' :: ':' :: ' ' :: (encString e.texte ++ ',' :: '\n' :: (spaces (ind + 2)
          ++ (encString "files".toList ++ ':' :: ' ' :: (encFilesArr (ind + 2) e.files
            ++ '\n' :: (spaces ind ++ rbrace :: close)))))) := by
    rw [skipWs_nl, skipWs_spaces, encString_append, skipWs_quote]
  rw [parseVal_obj_cons (f3 + 1 + 1) _ '"' _ hs1 (by decide)]
  have hv1 : parseVal (f3 + 1) (skipWs (' ' :: (encString e.texte
        ++ ',' :: '\n' :: (spaces (ind + 2)
          ++ (encString "files".toList ++ ':' :: ' ' :: (encFilesArr (ind + 2) e.files
            ++ '\n' :: (spaces ind ++ rbrace :: close)))))))
      = some (.jstr e.texte, ',' :: '\n' :: (spaces (ind + 2)
          ++ (encString "files".toList ++ ':' :: ' ' :: (encFilesArr (ind + 2) e.files
            ++ '\n' :: (spaces ind ++ rbrace :: close))))) := by
    rw [skipWs_sp, encString_append, skipWs_quote, ← encString_append]
    exact parseVal_str e.texte _ (f3 + 1) (by omega)
  rw [parseMembers_one (f3 + 1) "texte".toList _ (.jstr e.texte) _ hv1]
  rw [skipWs_comma]
  show (match parseMembers (f3 + 1)
      (skipWs ('\n' :: (spaces (ind + 2)
        ++ (encString "files".toList ++ ':' :: ' ' :: (encFilesArr (ind + 2) e.files
          ++ '\n' :: (spaces ind ++ rbrace :: close)))))) with
    | none => none
    | some (ms, r5) => some (("texte".toList, JVal.jstr e.texte) :: ms, r5)).map
      (fun x : List (Str × JVal) × Str => (JVal.jobj x.1, x.2)) = some (entryToJ e, close)
  have hs2 : skipWs ('\n' :: (spaces (ind + 2)
        ++ (encString "files".toList ++ ':' :: ' ' :: (encFilesArr (ind + 2) e.files
          ++ '\n' :: (spaces ind ++ rbrace :: close)))))
      = '"' :: (escBody "files".toList ++ '"' :: ':' :: ' ' :: (encFilesArr (ind + 2) e.files
          ++ '\n' :: (spaces ind ++ rbrace :: close))) := by
    rw [skipWs_nl, skipWs_spaces, encString_append, skipWs_quote]
  rw [hs2]
  have hv2 : parseVal f3 (skipWs (' ' :: (encFilesArr (ind + 2) e.files
        ++ '\n' :: (spaces ind ++ rbrace :: close))))
      = some (.jarr (e.files.map JVal.jstr), '\n' :: (spaces ind ++ rbrace :: close)) := by
    rw [skipWs_sp, encFilesArr_head]
    exact parseVal_files (ind + 2) e.files f3 _ (by omega)
  rw [parseMembers_one f3 "files".toList _ (.jarr (e.files.map JVal.jstr)) _ hv2]
  rw [skipWs_nl, skipWs_spaces, skipWs_rbrace]
  rfl

theorem encEntry_head (ind : Nat) (e : Entry) (X : Str) :
    skipWs (encEntry ind e ++ X) = encEntry ind e ++ X := skipWs_lbrace _

/-- Fuel sufficient to scan the members of a draft after the first. -/
def draftFuel : Draft → Nat
  | [] => 1
  | (_, e) :: rest => e.files.length + 8 + draftFuel rest

/-- The member loop scans a serialised draft's members into the
corresponding `entryToJ` list. -/
theorem parseMembers_draft : ∀ (rest : Draft) (k : Str) (e : Entry) (f : Nat) (close : Str),
    e.files.length + 6 + draftFuel rest ≤ f →
    parseMembers (f + 1)
      ('"' :: (escBody k ++ '"' :: ':' :: ' ' :: (encEntry 2 e ++ (encDraftTail rest ++ close))))
      = some ((k, entryToJ e) :: rest.map (fun kv => (kv.1, entryToJ kv.2)), close)
  | [], k, e, f, close, hf => by
    have hv : parseVal f (skipWs (' ' :: (encEntry 2 e ++ (encDraftTail [] ++ close))))
        = some (entryToJ e, encDraftTail [] ++ close) := by
      rw [skipWs_sp, encEntry_head]
      exact parseVal_entry 2 e f _ (by unfold draftFuel at hf; omega)
    rw [parseMembers_one f k _ (entryToJ e) _ hv]
    have htail : encDraftTail ([] : Draft) ++ close = '\n' :: rbrace :: close := by
      show ('\n' :: [rbrace]) ++ close = '\n' :: rbrace :: close
      simp only [List.cons_append, List.singleton_append, List.nil_append]
    rw [htail, skipWs_nl, skipWs_rbrace]
    rfl
  | (k2, e2) :: rest2, k, e, f, close, hf => by
    obtain ⟨f', rfl⟩ := Nat.exists_eq_succ_of_ne_zero
      (by unfold draftFuel at hf; omega : f ≠ 0)
    have hv : parseVal (f' + 1)
        (skipWs (' ' :: (encEntry 2 e ++ (encDraftTail ((k2, e2) :: rest2) ++ close))))
        = some (entryToJ e, encDraftTail ((k2, e2) :: rest2) ++ close) := by
      rw [skipWs_sp, encEntry_head]
      exact parseVal_entry 2 e (f' + 1) _ (by unfold draftFuel at hf; omega)
    rw [parseMembers_one (f' + 1) k _ (entryToJ e) _ hv]
    have htail : encDraftTail ((k2, e2) :: rest2) ++ close
        = ',' :: '\n' :: (spaces 2 ++ (encString k2
            ++ ':' :: ' ' :: (encEntry 2 e2 ++ (encDraftTail rest2 ++ close)))) := by
      show (',' :: '\n' :: (spaces 2 ++ (encString k2
          ++ ':' :: ' ' :: (encEntry 2 e2 ++ encDraftTail rest2)))) ++ close = _
      simp only [List.cons_append, List.append_assoc]
    rw [htail, skipWs_comma]
    show (match parseMembers (f' + 1) (skipWs ('\n' :: (spaces 2 ++ (encString k2
        ++ ':' :: ' ' :: (encEntry 2 e2 ++ (encDraftTail rest2 ++ close)))))) with
      | none => none
      | some (ms, r5) => some ((k, entryToJ e) :: ms, r5))
      = some ((k, entryToJ e) :: ((k2, e2) :: rest2).map (fun kv => (kv.1, entryToJ kv.2)),
          close)
    rw [skipWs_nl, skipWs_spaces, encString_append, skipWs_quote]
    rw [parseMembers_draft rest2 k2 e2 f' close (by unfold draftFuel at hf; omega)]
    rfl

theorem encString_len (s : Str) : 2 ≤ (encString s).length := by
  unfold encString
  simp only [List.length_cons, List.length_append, List.length_singleton]
  omega

theorem encFilesTail_len (ind indOut : Nat) :
    ∀ ss : List Str, ss.length + 1 ≤ (encFilesTail ind indOut ss).length
  | [] => by
    unfold encFilesTail
    simp only [List.length_cons, List.length_append, List.length_singleton, List.length_nil]
    omega
  | s :: ss => by
    unfold encFilesTail
    have h1 := encFilesTail_len ind indOut ss
    have h2 := encString_len s
    simp only [List.length_cons, List.length_append]
    omega

theorem encFilesArr_len (ind : Nat) :
    ∀ files : List Str, files.length + 2 ≤ (encFilesArr ind files).length
  | [] => by
    show ([] : List Str).length + 2 ≤ (['[', ']'] : Str).length
    decide
  | s :: ss => by
    unfold encFilesArr
    have h1 := encFilesTail_len (ind + 2) ind ss
    have h2 := encString_len s
    simp only [List.length_cons, List.length_append]
    omega

theorem encEntry_len (ind : Nat) (e : Entry) :
    e.files.length + 8 ≤ (encEntry ind e).length := by
  unfold encEntry
  have h1 := encFilesArr_len (ind + 2) e.files
  have h2 := encString_len e.texte
  simp only [List.length_cons, List.length_append, List.length_singleton]
  omega

theorem encDraftTail_len : ∀ rest : Draft, draftFuel rest ≤ (encDraftTail rest).length
  | [] => by decide
  | (k2, e2) :: rest2 => by
    unfold encDraftTail draftFuel
    have h1 := encDraftTail_len rest2
    have h2 := encEntry_len 2 e2
    have h3 := encString_len k2
    simp only [List.length_cons, List.length_append]
    omega

theorem encDraft_len (k : Str) (e : Entry) (rest : Draft) :
    e.files.length + 6 + draftFuel rest + 1 ≤ (encDraft ((k, e) :: rest)).length := by
  unfold encDraft
  have h1 := encDraftTail_len rest
  have h2 := encEntry_len 2 e
  have h3 := encString_len k
  simp only [List.length_cons, List.length_append]
  omega

/-- A serialised draft parses back to exactly its JSON value. -/
theorem parseTop_encDraft (d : Draft) : parseTop (encDraft d) = some (draftToJ d) := by
  cases d with
  | nil => rfl
  | cons kv rest =>
    obtain ⟨k, e⟩ := kv
    unfold parseTop
    have hskip : skipWs (encDraft ((k, e) :: rest)) = encDraft ((k, e) :: rest) :=
      skipWs_lbrace _
    rw [hskip]
    obtain ⟨F1, hF⟩ : ∃ F1, (encDraft ((k, e) :: rest)).length = F1 + 1 :=
      ⟨(encDraft ((k, e) :: rest)).length - 1,
        by have := encDraft_len k e rest; omega⟩
    rw [hF]
    have henc : encDraft ((k, e) :: rest)
        = lbrace :: '\n' :: (spaces 2 ++ (encString k
            ++ ':' :: ' ' :: (encEntry 2 e ++ (encDraftTail rest ++ ([] : Str))))) := by
      unfold encDraft
      rw [List.append_nil]
    rw [henc]
    have hs : skipWs ('\n' :: (spaces 2 ++ (encString k
        ++ ':' :: ' ' :: (encEntry 2 e ++ (encDraftTail rest ++ ([] : Str))))))
        = '"' :: (escBody k
            ++ '"' :: ':' :: ' ' :: (encEntry 2 e ++ (encDraftTail rest ++ ([] : Str)))) := by
      rw [skipWs_nl, skipWs_spaces, encString_append, skipWs_quote]
    rw [parseVal_obj_cons (F1 + 1) _ '"' _ hs (by decide)]
    obtain ⟨F2, hF2⟩ : ∃ F2, F1 + 1 = F2 + 1 := ⟨F1, rfl⟩
    rw [hF2]
    rw [parseMembers_draft rest k e F2 [] (by
      have := encDraft_len k e rest
      omega)]
    rfl

theorem strsOf_map (files : List Str) : strsOf (files.map JVal.jstr) = some files := by
  induction files with
  | nil => rfl
  | cons s ss ih =>
    simp only [List.map_cons, strsOf, ih]
    rfl

theorem jToEntry_entryToJ (e : Entry) : jToEntry (entryToJ e) = some e := by
  show (if "texte".toList = "texte".toList ∧ "files".toList = "files".toList then
      (strsOf (e.files.map JVal.jstr)).map (fun l => (⟨e.texte, l⟩ : Entry))
    else none) = some e
  rw [if_pos ⟨rfl, rfl⟩, strsOf_map]
  rfl

theorem jToDraft_draftToJ (d : Draft) : jToDraft (draftToJ d) = some d := by
  unfold draftToJ jToDraft
  induction d with
  | nil => rfl
  | cons kv rest ih =>
    obtain ⟨k, e⟩ := kv
    simp only [List.map_cons, jToDraftList, jToEntry_entryToJ]
    simp only [jToDraft] at ih
    rw [ih]

/-- C6 confirmed: saving any draft (answer texts being arbitrary strings
of Unicode scalar values, including empty strings and embedded quote and
newline characters, all covered by the escape round-trip) and loading for
the same `client_id` returns exactly the saved draft: the loaded JSON
value is the draft's JSON image, and decoding it gives back the original
`Draft`. -/
theorem draft_roundtrip (fs : DraftFS) (cid : Str) (d : Draft) :
    load_draft (save_draft fs cid d) cid = draftToJ d ∧
    jToDraft (load_draft (save_draft fs cid d) cid) = some d := by
  have hlk : (save_draft fs cid d).lookup (slugify cid) = some (encDraft d) := by
    unfold save_draft
    rw [List.lookup_cons]
    simp
  have hload : load_draft (save_draft fs cid d) cid = draftToJ d := by
    unfold load_draft
    rw [hlk]
    dsimp only
    rw [parseTop_encDraft d]
  exact ⟨hload, by rw [hload]; exact jToDraft_draftToJ d⟩

/-- C7 confirmed: `load_draft` is total; it returns the empty draft `{}`
when no persisted file exists for the slug or when `json.loads` fails on
the persisted text, and the parsed value otherwise. -/
theorem draft_load_total (fs : DraftFS) (cid : Str) :
    (fs.lookup (slugify cid) = none → load_draft fs cid = JVal.jobj []) ∧
    (∀ txt, fs.lookup (slugify cid) = some txt → parseTop txt = none →
      load_draft fs cid = JVal.jobj []) ∧
    (∀ txt v, fs.lookup (slugify cid) = some txt → parseTop txt = some v →
      load_draft fs cid = v) := by
  refine ⟨fun h => ?_, fun txt h hp => ?_, fun txt v h hp => ?_⟩
  · unfold load_draft
    rw [h]
  · unfold load_draft
    rw [h]
    dsimp only
    rw [hp]
  · unfold load_draft
    rw [h]
    dsimp only
    rw [hp]

/-- Witness for `draft_load_total` on a concrete corrupt draft file. -/
theorem draft_load_total_witness :
    load_draft [("c".toList, "[".toList)] "c".toList = JVal.jobj [] :=
  (draft_load_total [("c".toList, "[".toList)] "c".toList).2.1 "[".toList rfl rfl

end DIClient
